import Mathlib

/-!
# Boids-GO: the flocking rules of `main.go`

A shallow embedding of `src/main.go` in exact arithmetic.

* `float64` is modelled by `Float64 K = Option K` over an ordered field `K`
  with a square root: `some x` is the finite real `x` and `none` is NaN.
  Arithmetic is exact on finite values and propagates NaN, a comparison with
  NaN is false, and a division by zero gives NaN (the program only ever
  divides zero by zero, see `Boid.separate`).  Rounding and overflow are
  outside the model; `fmulUnderflow` alone adds the underflow of a product, to
  show what `separate` does where the exact squares are below the `float64`
  range.
* A `*Boid` receiver with a `[]*Boid` argument is modelled twice: the methods
  `Boid.align`, `Boid.separate`, `Boid.cohesion`, `Boid.flock` are the bodies
  as functions of the receiver and of the list read by the loop, and
  `alignAt`, `separateAt`, `cohesionAt`, `flockAt` run them on the entry `i`
  of the flock itself, as `main` does, writing the result back in place.
-/

namespace Boids

/-- An ordered field with the square root used by `math.Sqrt`. -/
class SqrtField (K : Type) extends LinearOrderedField K where
  /-- The square root of a non-negative number. -/
  sqrt : K → K
  sqrt_nonneg : ∀ x : K, 0 ≤ x → 0 ≤ sqrt x
  sqrt_mul_self : ∀ x : K, 0 ≤ x → sqrt x * sqrt x = x

/-- The real numbers with `Real.sqrt`. -/
noncomputable instance instSqrtFieldReal : SqrtField ℝ where
  sqrt := Real.sqrt
  sqrt_nonneg := fun _ _ => Real.sqrt_nonneg _
  sqrt_mul_self := fun _ hx => Real.mul_self_sqrt hx

/-- A `float64` in exact arithmetic: `some x` is finite, `none` is NaN. -/
abbrev Float64 (K : Type) : Type := Option K

section Arith

variable {K : Type} [SqrtField K]

/-- Float addition `a + b`. -/
def fadd : Float64 K → Float64 K → Float64 K
  | some x, some y => some (x + y)
  | _, _ => none

/-- Float subtraction `a - b`. -/
def fsub : Float64 K → Float64 K → Float64 K
  | some x, some y => some (x - y)
  | _, _ => none

/-- Float multiplication `a * b`. -/
def fmul : Float64 K → Float64 K → Float64 K
  | some x, some y => some (x * y)
  | _, _ => none

/-- Float division `a / b`: NaN when the divisor is zero. -/
def fdiv : Float64 K → Float64 K → Float64 K
  | some x, some y => if y = 0 then none else some (x / y)
  | _, _ => none

/-- The function `math.Sqrt`: NaN on NaN and on negative numbers. -/
def fsqrt : Float64 K → Float64 K
  | some x => if x < 0 then none else some (SqrtField.sqrt x)
  | none => none

/-- Float comparison `a < b`: false as soon as one side is NaN. -/
def flt : Float64 K → Float64 K → Bool
  | some x, some y => decide (x < y)
  | _, _ => false

end Arith

/-- The struct `Point`. -/
structure Point (K : Type) where
  x : Float64 K
  y : Float64 K
deriving DecidableEq

/-- The struct `Boid`. -/
structure Boid (K : Type) where
  position : Point K
  velocity : Point K
deriving DecidableEq

/-- The local variables `sum` and `count` of a rule's loop. -/
structure Acc (K : Type) where
  sum : Point K
  count : Nat
deriving DecidableEq

section Rules

variable {K : Type} [SqrtField K]

/-- The initial values `var sum Point` and `count := 0`. -/
def Acc.zero : Acc K := { sum := { x := some 0, y := some 0 }, count := 0 }

/-- The method `updatePosition`. -/
def Boid.updatePosition (b : Boid K) : Boid K :=
  { b with position :=
      { x := fadd b.position.x b.velocity.x
        y := fadd b.position.y b.velocity.y } }

/-- The method `distance`. -/
def Boid.distance (b other : Boid K) : Float64 K :=
  let dx := fsub b.position.x other.position.x
  let dy := fsub b.position.y other.position.y
  fsqrt (fadd (fmul dx dx) (fmul dy dy))

/-- One iteration of the loop of `align`. -/
def alignStep (b : Boid K) (acc : Acc K) (neighbor : Boid K) : Acc K :=
  if flt (b.distance neighbor) (some 10) then
    { sum := { x := fadd acc.sum.x neighbor.velocity.x
               y := fadd acc.sum.y neighbor.velocity.y }
      count := acc.count + 1 }
  else acc

/-- The loop of `align`: the final `sum` and `count`. -/
def alignLoop (b : Boid K) (neighbors : List (Boid K)) : Acc K :=
  neighbors.foldl (alignStep b) Acc.zero

/-- The method `align`. -/
def Boid.align (b : Boid K) (neighbors : List (Boid K)) : Boid K :=
  let acc := alignLoop b neighbors
  if acc.count > 0 then
    let sx := fdiv acc.sum.x (some (acc.count : K))
    let sy := fdiv acc.sum.y (some (acc.count : K))
    { b with velocity :=
        { x := fdiv (fadd b.velocity.x sx) (some 2)
          y := fdiv (fadd b.velocity.y sy) (some 2) } }
  else b

/-- One iteration of the loop of `separate`. -/
def separateStep (b : Boid K) (acc : Acc K) (neighbor : Boid K) : Acc K :=
  if flt (b.distance neighbor) (some 50) then
    let diff : Point K :=
      { x := fsub b.position.x neighbor.position.x
        y := fsub b.position.y neighbor.position.y }
    let distance := fsqrt (fadd (fmul diff.x diff.x) (fmul diff.y diff.y))
    { sum := { x := fadd acc.sum.x (fdiv diff.x distance)
               y := fadd acc.sum.y (fdiv diff.y distance) }
      count := acc.count + 1 }
  else acc

/-- The loop of `separate`: the final `sum` and `count`. -/
def separateLoop (b : Boid K) (neighbors : List (Boid K)) : Acc K :=
  neighbors.foldl (separateStep b) Acc.zero

/-- The method `separate`. -/
def Boid.separate (b : Boid K) (neighbors : List (Boid K)) : Boid K :=
  let acc := separateLoop b neighbors
  if acc.count > 0 then
    let sx := fdiv acc.sum.x (some (acc.count : K))
    let sy := fdiv acc.sum.y (some (acc.count : K))
    { b with velocity :=
        { x := fdiv (fadd b.velocity.x sx) (some 2)
          y := fdiv (fadd b.velocity.y sy) (some 2) } }
  else b

/-- One iteration of the loop of `cohesion`. -/
def cohesionStep (b : Boid K) (acc : Acc K) (neighbor : Boid K) : Acc K :=
  if flt (b.distance neighbor) (some 100) then
    { sum := { x := fadd acc.sum.x neighbor.position.x
               y := fadd acc.sum.y neighbor.position.y }
      count := acc.count + 1 }
  else acc

/-- The loop of `cohesion`: the final `sum` and `count`. -/
def cohesionLoop (b : Boid K) (neighbors : List (Boid K)) : Acc K :=
  neighbors.foldl (cohesionStep b) Acc.zero

/-- The method `cohesion`. -/
def Boid.cohesion (b : Boid K) (neighbors : List (Boid K)) : Boid K :=
  let acc := cohesionLoop b neighbors
  if acc.count > 0 then
    let sx := fdiv acc.sum.x (some (acc.count : K))
    let sy := fdiv acc.sum.y (some (acc.count : K))
    let direction : Point K :=
      { x := fsub sx b.position.x, y := fsub sy b.position.y }
    { b with velocity :=
        { x := fdiv (fadd b.velocity.x direction.x) (some 2)
          y := fdiv (fadd b.velocity.y direction.y) (some 2) } }
  else b

/-- The method `flock` as a function of the receiver and of the list read by
the loops (`flockAt_eq` relates it to the call on an entry of the list). -/
def Boid.flock (b : Boid K) (neighbors : List (Boid K)) : Boid K :=
  ((b.align neighbors).separate neighbors).cohesion neighbors

/-- The call `boids[i].align(boids)`: the receiver is entry `i` of the list
the loop reads, and its new velocity is written to that entry. -/
def alignAt (boids : List (Boid K)) (i : Nat) : List (Boid K) :=
  match boids[i]? with
  | some b => boids.set i (b.align boids)
  | none => boids

/-- The call `boids[i].separate(boids)`, in place. -/
def separateAt (boids : List (Boid K)) (i : Nat) : List (Boid K) :=
  match boids[i]? with
  | some b => boids.set i (b.separate boids)
  | none => boids

/-- The call `boids[i].cohesion(boids)`, in place. -/
def cohesionAt (boids : List (Boid K)) (i : Nat) : List (Boid K) :=
  match boids[i]? with
  | some b => boids.set i (b.cohesion boids)
  | none => boids

/-- The call `boids[i].flock(boids)` of `main`: the three rules in place, each
reading the flock as the previous one left it. -/
def flockAt (boids : List (Boid K)) (i : Nat) : List (Boid K) :=
  cohesionAt (separateAt (alignAt boids i) i) i

/-- The first inner loop of `main`: `b.flock(boids)` for every `b`, in flock
order, on the live flock. -/
def velocityPass (boids : List (Boid K)) : List (Boid K) :=
  (List.range boids.length).foldl flockAt boids

/-- The second inner loop of `main`: `b.updatePosition()` for every `b`. -/
def positionPass (boids : List (Boid K)) : List (Boid K) :=
  boids.map Boid.updatePosition

/-- One iteration of the outer loop of `main` (printing left out). -/
def tick (boids : List (Boid K)) : List (Boid K) :=
  positionPass (velocityPass boids)

/-- The outer loop of `main` run for `steps` iterations. -/
def run : Nat → List (Boid K) → List (Boid K)
  | 0, boids => boids
  | steps + 1, boids => run steps (tick boids)

/-- A boid with finite coordinates. -/
def Boid.mk4 (px py vx vy : K) : Boid K :=
  { position := { x := some px, y := some py }
    velocity := { x := some vx, y := some vy } }

/-- The flock built by `main`. -/
def mainBoids : List (Boid K) :=
  [Boid.mk4 100 100 1 1, Boid.mk4 200 100 1 1, Boid.mk4 300 100 1 1, Boid.mk4 400 100 1 1]

/-- The sum of a list of floats, the way the specification writes it. -/
def fsum (l : List (Float64 K)) : Float64 K :=
  l.foldr fadd (some 0)

/-- The entries of `neighbors` strictly within `radius` of `b`. -/
def within (b : Boid K) (radius : K) (neighbors : List (Boid K)) : List (Boid K) :=
  neighbors.filter (fun n => flt (b.distance n) (some radius))

/-- The blend `(v + target) / 2` of a velocity with a target vector. -/
def blend (v target : Point K) : Point K :=
  { x := fdiv (fadd v.x target.x) (some 2)
    y := fdiv (fadd v.y target.y) (some 2) }

/-- The average `(sum of xs / n, sum of ys / n)` of a list of vectors given by
their components. -/
def average (xs ys : List (Float64 K)) (n : Nat) : Point K :=
  { x := fdiv (fsum xs) (some (n : K))
    y := fdiv (fsum ys) (some (n : K)) }

/-- The common shape of one iteration of the three loops: an entry strictly
within `r` of `b` adds `(f n, g n)` to `sum` and one to `count`. -/
def gstep (b : Boid K) (r : K) (f g : Boid K → Float64 K) (acc : Acc K) (n : Boid K) : Acc K :=
  if flt (b.distance n) (some r) then
    { sum := { x := fadd acc.sum.x (f n), y := fadd acc.sum.y (g n) }
      count := acc.count + 1 }
  else acc

/-- The unit vector `(b.position - n.position) / distance(b, n)`, first component. -/
def unitX (b n : Boid K) : Float64 K :=
  fdiv (fsub b.position.x n.position.x) (b.distance n)

/-- The unit vector `(b.position - n.position) / distance(b, n)`, second component. -/
def unitY (b n : Boid K) : Float64 K :=
  fdiv (fsub b.position.y n.position.y) (b.distance n)

/-- Both coordinates are finite. -/
def Point.isFinite (p : Point K) : Bool :=
  p.x.isSome && p.y.isSome

/-- The vector (NaN, NaN). -/
def nanPoint : Point K := { x := none, y := none }

/-- What `b.flock(boids)` leaves in `b` when `boids` holds an entry at the
position of `b` (as it does when `b` is itself an entry): a NaN velocity when the
position of `b` is finite, and `b` as it was otherwise. -/
def afterFlock (b : Boid K) : Boid K :=
  if b.position.isFinite then { b with velocity := nanPoint } else b

/-- The velocity pass described agent by agent: the agents already treated are
in `done`, with the velocities the pass gave them, and the head of the second
list is treated against `done`, itself and the agents still to come. -/
def seqPass (done : List (Boid K)) : List (Boid K) → List (Boid K)
  | [] => done
  | b :: rest => seqPass (done ++ [b.flock (done ++ b :: rest)]) rest

/-- A velocity pass on a snapshot: every agent is treated against the
pre-tick state of all the other agents (`before` are those ahead of it in the
flock, the tail of the second list those behind). -/
def snapshotFrom (before : List (Boid K)) : List (Boid K) → List (Boid K)
  | [] => []
  | b :: rest => b.flock (before ++ rest) :: snapshotFrom (before ++ [b]) rest

/-- The snapshot pass of a whole flock. -/
def snapshotPass (boids : List (Boid K)) : List (Boid K) :=
  snapshotFrom [] boids

/-- The divisors of the divisions made by one iteration of the loop of
`separate`: `diff.x / distance` and `diff.y / distance` when the entry is
counted, none otherwise (`separateStepTraced_fmul`: the traced step yields them
next to the result of `separateStep`). -/
def separateStepDivisors (b neighbor : Boid K) : List (Float64 K) :=
  if flt (b.distance neighbor) (some 50) then
    let diff : Point K :=
      { x := fsub b.position.x neighbor.position.x
        y := fsub b.position.y neighbor.position.y }
    let distance := fsqrt (fadd (fmul diff.x diff.x) (fmul diff.y diff.y))
    [distance, distance]
  else []

/-- The divisors of the divisions by `distance` made by the loop of
`separate`, in the order of the run (`foldl_separateStepTraced_fmul`: the
traced loop yields them next to the `sum` and `count` of `separateLoop`). -/
def separateLoopDivisors (b : Boid K) : List (Boid K) → List (Float64 K)
  | [] => []
  | neighbor :: rest => separateStepDivisors b neighbor ++ separateLoopDivisors b rest

/-- The divisors of all the divisions made by `separate`, in the order of the
run: those of the loop, then `float64(count)` twice and 2 twice when
`count > 0` (`separateTraced_fmul`: the traced run yields them next to the
result of `Boid.separate`). -/
def separateDivisors (b : Boid K) (neighbors : List (Boid K)) : List (Float64 K) :=
  separateLoopDivisors b neighbors ++
    (if (separateLoop b neighbors).count > 0 then
      [some ((separateLoop b neighbors).count : K), some ((separateLoop b neighbors).count : K),
        some 2, some 2]
     else [])

/-- Float comparison `a == b`: false as soon as one side is NaN. -/
def feq : Float64 K → Float64 K → Bool
  | some x, some y => decide (x = y)
  | _, _ => false

/-- The position of `n` equals the position of `b`, coordinate by coordinate,
as floats. -/
def Boid.samePosition (b n : Boid K) : Bool :=
  feq b.position.x n.position.x && feq b.position.y n.position.y

/-- The closed form `v/8 + a/8 + u/4 + d/2`. -/
def closedForm (v a u d : Float64 K) : Float64 K :=
  fadd (fadd (fadd (fdiv v (some 8)) (fdiv a (some 8))) (fdiv u (some 4))) (fdiv d (some 2))

/-- Float multiplication `a * b` with the underflow of `float64`: a product of
magnitude at most 2^-1075, half the smallest positive `float64`, rounds to zero
(round to nearest, ties to even). The rounding of larger products is left out. -/
def fmulUnderflow : Float64 K → Float64 K → Float64 K
  | some x, some y => if |x * y| ≤ 1 / 2 ^ 1075 then some 0 else some (x * y)
  | _, _ => none

/-- The method `distance`, with the multiplication `mul` for `*`. -/
def Boid.distanceWith (mul : Float64 K → Float64 K → Float64 K) (b other : Boid K) :
    Float64 K :=
  let dx := fsub b.position.x other.position.x
  let dy := fsub b.position.y other.position.y
  fsqrt (fadd (mul dx dx) (mul dy dy))

/-- One iteration of the loop of `separate`, with the multiplication `mul` for
`*`, run on `sum`, `count` and the list of the divisors met so far: a counted
entry adds its two quotients to `sum` and records the divisor `distance` of
each of the two divisions. -/
def separateStepTraced (mul : Float64 K → Float64 K → Float64 K) (b : Boid K)
    (st : Acc K × List (Float64 K)) (neighbor : Boid K) : Acc K × List (Float64 K) :=
  if flt (b.distanceWith mul neighbor) (some 50) then
    let diff : Point K :=
      { x := fsub b.position.x neighbor.position.x
        y := fsub b.position.y neighbor.position.y }
    let distance := fsqrt (fadd (mul diff.x diff.x) (mul diff.y diff.y))
    ({ sum := { x := fadd st.1.sum.x (fdiv diff.x distance)
                y := fadd st.1.sum.y (fdiv diff.y distance) }
       count := st.1.count + 1 },
     st.2 ++ [distance, distance])
  else st

/-- The method `separate`, with the multiplication `mul` for `*`, returning
the boid it leaves and the divisors of all its divisions in the order of the
run: those by `distance` in the loop, then `float64(count)` twice and 2 twice
when `count > 0`. -/
def separateTraced (mul : Float64 K → Float64 K → Float64 K) (b : Boid K)
    (neighbors : List (Boid K)) : Boid K × List (Float64 K) :=
  let st := neighbors.foldl (separateStepTraced mul b) (Acc.zero, [])
  if st.1.count > 0 then
    let sx := fdiv st.1.sum.x (some (st.1.count : K))
    let sy := fdiv st.1.sum.y (some (st.1.count : K))
    ({ b with velocity :=
        { x := fdiv (fadd b.velocity.x sx) (some 2)
          y := fdiv (fadd b.velocity.y sy) (some 2) } },
     st.2 ++ [some (st.1.count : K), some (st.1.count : K), some 2, some 2])
  else (b, st.2)

end Rules

section Lemmas

variable {K : Type} [SqrtField K]

@[simp] theorem fadd_some (x y : K) : fadd (some x) (some y) = some (x + y) := rfl
@[simp] theorem fsub_some (x y : K) : fsub (some x) (some y) = some (x - y) := rfl
@[simp] theorem fmul_some (x y : K) : fmul (some x) (some y) = some (x * y) := rfl
@[simp] theorem fadd_none_left (a : Float64 K) : fadd none a = none := rfl
@[simp] theorem fadd_none_right (a : Float64 K) : fadd a none = none := by
  cases a <;> rfl
@[simp] theorem fsub_none_left (a : Float64 K) : fsub none a = none := rfl
@[simp] theorem fsub_none_right (a : Float64 K) : fsub a none = none := by
  cases a <;> rfl
@[simp] theorem fmul_none_left (a : Float64 K) : fmul none a = none := rfl
@[simp] theorem fmul_none_right (a : Float64 K) : fmul a none = none := by
  cases a <;> rfl
@[simp] theorem fdiv_none_left (a : Float64 K) : fdiv none a = none := rfl
@[simp] theorem fdiv_none_right (a : Float64 K) : fdiv a none = none := by
  cases a <;> rfl
@[simp] theorem fdiv_zero (a : Float64 K) : fdiv a (some 0) = none := by
  cases a <;> simp [fdiv]
theorem fdiv_some (x y : K) (hy : y ≠ 0) : fdiv (some x) (some y) = some (x / y) := by
  simp [fdiv, hy]
@[simp] theorem fdiv_two (x : K) : fdiv (some x) (some 2) = some (x / 2) :=
  fdiv_some x 2 two_ne_zero
@[simp] theorem fsqrt_none : fsqrt (none : Float64 K) = none := rfl
@[simp] theorem flt_none_left (a : Float64 K) : flt none a = false := rfl
@[simp] theorem flt_none_right (a : Float64 K) : flt a none = false := by
  cases a <;> rfl
@[simp] theorem flt_some (x y : K) : flt (some x) (some y) = decide (x < y) := rfl

@[simp] theorem fadd_zero (a : Float64 K) : fadd a (some 0) = a := by
  cases a <;> simp
@[simp] theorem zero_fadd (a : Float64 K) : fadd (some 0) a = a := by
  cases a <;> simp

theorem fadd_assoc (a b c : Float64 K) : fadd (fadd a b) c = fadd a (fadd b c) := by
  cases a <;> cases b <;> cases c <;> simp [add_assoc]

theorem fadd_comm (a b : Float64 K) : fadd a b = fadd b a := by
  cases a <;> cases b <;> simp [add_comm]

theorem sqrt_zero : SqrtField.sqrt (0 : K) = 0 := by
  have h := SqrtField.sqrt_mul_self (0 : K) le_rfl
  exact mul_self_eq_zero.mp h

theorem sqrt_mul_self_eq (a : K) (ha : 0 ≤ a) : SqrtField.sqrt (a * a) = a := by
  have h0 : (0 : K) ≤ a * a := mul_self_nonneg a
  have h1 := SqrtField.sqrt_nonneg (a * a) h0
  have h2 := SqrtField.sqrt_mul_self (a * a) h0
  rcases mul_self_eq_mul_self_iff.mp h2 with h | h
  · exact h
  · have : a = 0 := by linarith
    rw [h, this]; simp

theorem fsqrt_some (x : K) (hx : 0 ≤ x) : fsqrt (some x) = some (SqrtField.sqrt x) := by
  simp [fsqrt, not_lt.mpr hx]

@[simp] theorem fsum_nil : fsum ([] : List (Float64 K)) = some 0 := rfl
@[simp] theorem fsum_cons (a : Float64 K) (l : List (Float64 K)) :
    fsum (a :: l) = fadd a (fsum l) := rfl

theorem foldl_gstep (b : Boid K) (r : K) (f g : Boid K → Float64 K) (L : List (Boid K))
    (acc : Acc K) :
    L.foldl (gstep b r f g) acc =
      { sum := { x := fadd acc.sum.x (fsum ((within b r L).map f))
                 y := fadd acc.sum.y (fsum ((within b r L).map g)) }
        count := acc.count + (within b r L).length } := by
  induction L generalizing acc with
  | nil => simp [within]
  | cons n L ih =>
    rw [List.foldl_cons, ih]
    by_cases h : flt (b.distance n) (some r) = true
    · simp [gstep, within, List.filter_cons, h, fadd_assoc, Nat.add_assoc, Nat.add_comm 1]
    · simp [gstep, within, List.filter_cons, h]

theorem alignLoop_eq (b : Boid K) (L : List (Boid K)) :
    alignLoop b L =
      { sum := { x := fsum ((within b 10 L).map fun n => n.velocity.x)
                 y := fsum ((within b 10 L).map fun n => n.velocity.y) }
        count := (within b 10 L).length } := by
  have h := foldl_gstep b 10 (fun n => n.velocity.x) (fun n => n.velocity.y) L Acc.zero
  simpa [alignLoop, Acc.zero] using h

theorem separateLoop_eq (b : Boid K) (L : List (Boid K)) :
    separateLoop b L =
      { sum := { x := fsum ((within b 50 L).map (unitX b))
                 y := fsum ((within b 50 L).map (unitY b)) }
        count := (within b 50 L).length } := by
  have h := foldl_gstep b 50 (unitX b) (unitY b) L Acc.zero
  have hs : separateStep b = gstep b 50 (unitX b) (unitY b) := rfl
  simpa [separateLoop, Acc.zero, hs] using h

theorem cohesionLoop_eq (b : Boid K) (L : List (Boid K)) :
    cohesionLoop b L =
      { sum := { x := fsum ((within b 100 L).map fun n => n.position.x)
                 y := fsum ((within b 100 L).map fun n => n.position.y) }
        count := (within b 100 L).length } := by
  have h := foldl_gstep b 100 (fun n => n.position.x) (fun n => n.position.y) L Acc.zero
  simpa [cohesionLoop, Acc.zero] using h

theorem sqrt_eq_of_mul_self (x a : K) (ha : 0 ≤ a) (h : x = a * a) :
    SqrtField.sqrt x = a := by
  rw [h]; exact sqrt_mul_self_eq a ha

theorem distance_of_positions (b n : Boid K) (px py qx qy : K)
    (hb : b.position = { x := some px, y := some py })
    (hn : n.position = { x := some qx, y := some qy }) :
    b.distance n =
      some (SqrtField.sqrt ((px - qx) * (px - qx) + (py - qy) * (py - qy))) := by
  have h : (0 : K) ≤ (px - qx) * (px - qx) + (py - qy) * (py - qy) :=
    add_nonneg (mul_self_nonneg _) (mul_self_nonneg _)
  simp [Boid.distance, hb, hn, fsqrt_some _ h]

theorem distance_eq (b n : Boid K) (px py qx qy d : K)
    (hb : b.position = { x := some px, y := some py })
    (hn : n.position = { x := some qx, y := some qy }) (hd : 0 ≤ d)
    (h : (px - qx) * (px - qx) + (py - qy) * (py - qy) = d * d) :
    b.distance n = some d := by
  rw [distance_of_positions b n px py qx qy hb hn, sqrt_eq_of_mul_self _ d hd h]

theorem distance_mk4 (px py vx vy qx qy wx wy : K) :
    (Boid.mk4 px py vx vy).distance (Boid.mk4 qx qy wx wy) =
      some (SqrtField.sqrt ((px - qx) * (px - qx) + (py - qy) * (py - qy))) :=
  distance_of_positions _ _ px py qx qy rfl rfl

theorem distance_mk4_eq (px py vx vy qx qy wx wy d : K) (hd : 0 ≤ d)
    (h : (px - qx) * (px - qx) + (py - qy) * (py - qy) = d * d) :
    (Boid.mk4 px py vx vy).distance (Boid.mk4 qx qy wx wy) = some d := by
  rw [distance_mk4, sqrt_eq_of_mul_self _ d hd h]

@[simp] theorem within_nil (b : Boid K) (r : K) : within b r [] = [] := rfl

theorem within_cons_of_lt (b : Boid K) (r : K) (n : Boid K) (L : List (Boid K))
    (h : flt (b.distance n) (some r) = true) : within b r (n :: L) = n :: within b r L := by
  simp [within, List.filter_cons, h]

theorem within_cons_of_not_lt (b : Boid K) (r : K) (n : Boid K) (L : List (Boid K))
    (h : flt (b.distance n) (some r) = false) : within b r (n :: L) = within b r L := by
  simp [within, List.filter_cons, h]

theorem align_eq (b : Boid K) (L : List (Boid K)) :
    b.align L =
      if within b 10 L = [] then b
      else { b with velocity := blend b.velocity (average
              ((within b 10 L).map fun n => n.velocity.x)
              ((within b 10 L).map fun n => n.velocity.y) (within b 10 L).length) } := by
  unfold Boid.align
  rw [alignLoop_eq]
  by_cases h : within b 10 L = []
  · simp [h]
  · have hl : 0 < (within b 10 L).length := List.length_pos.mpr h
    simp [h, hl, blend, average]

theorem separate_eq (b : Boid K) (L : List (Boid K)) :
    b.separate L =
      if within b 50 L = [] then b
      else { b with velocity := blend b.velocity (average
              ((within b 50 L).map (unitX b)) ((within b 50 L).map (unitY b))
              (within b 50 L).length) } := by
  unfold Boid.separate
  rw [separateLoop_eq]
  by_cases h : within b 50 L = []
  · simp [h]
  · have hl : 0 < (within b 50 L).length := List.length_pos.mpr h
    simp [h, hl, blend, average]

theorem cohesion_eq (b : Boid K) (L : List (Boid K)) :
    b.cohesion L =
      if within b 100 L = [] then b
      else { b with velocity := blend b.velocity (Point.mk
              (fsub (average ((within b 100 L).map fun n => n.position.x)
                      ((within b 100 L).map fun n => n.position.y)
                      (within b 100 L).length).x b.position.x)
              (fsub (average ((within b 100 L).map fun n => n.position.x)
                      ((within b 100 L).map fun n => n.position.y)
                      (within b 100 L).length).y b.position.y)) } := by
  unfold Boid.cohesion
  rw [cohesionLoop_eq]
  by_cases h : within b 100 L = []
  · simp [h]
  · have hl : 0 < (within b 100 L).length := List.length_pos.mpr h
    simp [h, hl, blend, average]

@[simp] theorem align_position (b : Boid K) (L : List (Boid K)) :
    (b.align L).position = b.position := by
  rw [align_eq]; split <;> rfl

@[simp] theorem separate_position (b : Boid K) (L : List (Boid K)) :
    (b.separate L).position = b.position := by
  rw [separate_eq]; split <;> rfl

@[simp] theorem cohesion_position (b : Boid K) (L : List (Boid K)) :
    (b.cohesion L).position = b.position := by
  rw [cohesion_eq]; split <;> rfl

@[simp] theorem flock_position (b : Boid K) (L : List (Boid K)) :
    (b.flock L).position = b.position := by
  simp [Boid.flock]

theorem distance_congr (b b' n n' : Boid K) (hb : b.position = b'.position)
    (hn : n.position = n'.position) : b.distance n = b'.distance n' := by
  simp [Boid.distance, hb, hn]

theorem within_congr_left (b b' : Boid K) (r : K) (L : List (Boid K))
    (hb : b.position = b'.position) : within b r L = within b' r L := by
  unfold within
  congr 1
  funext n
  rw [distance_congr b b' n n hb rfl]

theorem foldl_gstep_congr (b : Boid K) (r : K) (f g : Boid K → Float64 K)
    (hf : ∀ n n' : Boid K, n.position = n'.position → f n = f n')
    (hg : ∀ n n' : Boid K, n.position = n'.position → g n = g n') :
    ∀ (L L' : List (Boid K)) (acc : Acc K),
      L.map (fun n => n.position) = L'.map (fun n => n.position) →
      L.foldl (gstep b r f g) acc = L'.foldl (gstep b r f g) acc := by
  intro L
  induction L with
  | nil =>
    intro L' acc h
    cases L' with
    | nil => rfl
    | cons n' L' => simp at h
  | cons n L ih =>
    intro L' acc h
    cases L' with
    | nil => simp at h
    | cons n' L' =>
      simp only [List.map_cons, List.cons.injEq] at h
      rw [List.foldl_cons, List.foldl_cons]
      have hstep : gstep b r f g acc n = gstep b r f g acc n' := by
        simp [gstep, distance_congr b b n n' rfl h.1, hf n n' h.1, hg n n' h.1]
      rw [hstep]
      exact ih L' _ h.2

theorem separate_congr (b : Boid K) (L L' : List (Boid K))
    (h : L.map (fun n => n.position) = L'.map (fun n => n.position)) :
    b.separate L = b.separate L' := by
  have hs : separateStep b = gstep b 50 (unitX b) (unitY b) := rfl
  have hl : separateLoop b L = separateLoop b L' := by
    unfold separateLoop
    rw [hs]
    refine foldl_gstep_congr b 50 _ _ ?_ ?_ L L' _ h
    · intro n n' hn
      simp [unitX, hn, distance_congr b b n n' rfl hn]
    · intro n n' hn
      simp [unitY, hn, distance_congr b b n n' rfl hn]
  unfold Boid.separate
  rw [hl]

theorem cohesion_congr (b : Boid K) (L L' : List (Boid K))
    (h : L.map (fun n => n.position) = L'.map (fun n => n.position)) :
    b.cohesion L = b.cohesion L' := by
  have hs : cohesionStep b = gstep b 100 (fun n => n.position.x) (fun n => n.position.y) := rfl
  have hl : cohesionLoop b L = cohesionLoop b L' := by
    unfold cohesionLoop
    rw [hs]
    refine foldl_gstep_congr b 100 _ _ ?_ ?_ L L' _ h
    · intro n n' hn
      simp [hn]
    · intro n n' hn
      simp [hn]
  unfold Boid.cohesion
  rw [hl]

omit [SqrtField K] in
theorem lt_length_of_getElem? (bs : List (Boid K)) (i : Nat) (b : Boid K)
    (hi : bs[i]? = some b) : i < bs.length := by
  by_contra h
  rw [List.getElem?_eq_none (not_lt.mp h)] at hi
  cases hi

omit [SqrtField K] in
theorem map_position_set (bs : List (Boid K)) (i : Nat) (b b' : Boid K)
    (hi : bs[i]? = some b) (hp : b'.position = b.position) :
    (bs.set i b').map (fun n => n.position) = bs.map (fun n => n.position) := by
  have hlt := lt_length_of_getElem? bs i b hi
  apply List.ext_getElem?
  intro j
  by_cases hij : i = j
  · subst hij
    have hb : bs[i] = b := by
      have := List.getElem?_eq_getElem hlt
      rw [hi] at this
      exact (Option.some.inj this).symm
    simp [List.getElem?_map, List.getElem?_set, hp, hlt, hb]
  · simp [List.getElem?_map, List.getElem?_set, hij]

omit [SqrtField K] in
theorem getElem?_set_self_of (bs : List (Boid K)) (i : Nat) (b b' : Boid K)
    (hi : bs[i]? = some b) : (bs.set i b')[i]? = some b' := by
  have hlt := lt_length_of_getElem? bs i b hi
  simp [hlt]

theorem flockAt_eq (bs : List (Boid K)) (i : Nat) (b : Boid K) (hi : bs[i]? = some b) :
    flockAt bs i = bs.set i (b.flock bs) := by
  have h1 : alignAt bs i = bs.set i (b.align bs) := by simp [alignAt, hi]
  have g1 := getElem?_set_self_of bs i b (b.align bs) hi
  have p1 := map_position_set bs i b (b.align bs) hi (align_position b bs)
  have h2 : separateAt (bs.set i (b.align bs)) i =
      bs.set i ((b.align bs).separate bs) := by
    simp only [separateAt, g1, List.set_set]
    rw [separate_congr _ _ _ p1]
  have g2 := getElem?_set_self_of bs i b ((b.align bs).separate bs) hi
  have p2 := map_position_set bs i b ((b.align bs).separate bs) hi (by simp)
  have h3 : cohesionAt (bs.set i ((b.align bs).separate bs)) i =
      bs.set i (((b.align bs).separate bs).cohesion bs) := by
    simp only [cohesionAt, g2, List.set_set]
    rw [cohesion_congr _ _ _ p2]
  unfold flockAt
  rw [h1, h2, h3]
  rfl

theorem flockAt_of_none (bs : List (Boid K)) (i : Nat) (hi : bs[i]? = none) :
    flockAt bs i = bs := by
  simp [flockAt, alignAt, separateAt, cohesionAt, hi]

theorem fsum_of_mem_none (l : List (Float64 K)) (h : none ∈ l) : fsum l = none := by
  induction l with
  | nil => simp at h
  | cons a l ih =>
    rcases List.mem_cons.mp h with h | h
    · rw [fsum_cons, ← h]; rfl
    · rw [fsum_cons, ih h]; simp

@[simp] theorem blend_nan_left (t : Point K) : blend nanPoint t = nanPoint := by
  simp [blend, nanPoint]

@[simp] theorem blend_nan_right (v : Point K) : blend v nanPoint = nanPoint := by
  simp [blend, nanPoint]

theorem distance_of_same_position (b n : Boid K) (px py : K)
    (hb : b.position = { x := some px, y := some py }) (hn : n.position = b.position) :
    b.distance n = some 0 := by
  simp [Boid.distance, hn, hb, fsqrt, sqrt_zero]

theorem distance_of_not_finite (b n : Boid K) (hb : b.position.isFinite = false) :
    b.distance n = none := by
  rcases hpos : b.position with ⟨_ | px, _ | py⟩ <;>
    simp [Boid.distance, hpos, Point.isFinite] at hb ⊢

theorem within_of_not_finite (b : Boid K) (r : K) (L : List (Boid K))
    (hb : b.position.isFinite = false) : within b r L = [] := by
  simp [within, distance_of_not_finite b _ hb]

omit [SqrtField K] in
theorem exists_of_finite (p : Point K) (h : p.isFinite = true) :
    ∃ px py : K, p = { x := some px, y := some py } := by
  rcases p with ⟨_ | px, _ | py⟩ <;> simp [Point.isFinite] at h ⊢

theorem separate_of_same_position (b n : Boid K) (L : List (Boid K))
    (hfin : b.position.isFinite = true) (hn : n ∈ L) (hp : n.position = b.position) :
    b.separate L = { b with velocity := nanPoint } := by
  obtain ⟨px, py, hb⟩ := exists_of_finite _ hfin
  have hd := distance_of_same_position b n px py hb hp
  have hmem : n ∈ within b 50 L := by
    simp only [within, List.mem_filter]
    refine ⟨hn, ?_⟩
    rw [hd]; norm_num
  have hne : within b 50 L ≠ [] := List.ne_nil_of_mem hmem
  have hx : fsum ((within b 50 L).map (unitX b)) = none := by
    apply fsum_of_mem_none
    refine List.mem_map.mpr ⟨n, hmem, ?_⟩
    simp [unitX, hd]
  have hy : fsum ((within b 50 L).map (unitY b)) = none := by
    apply fsum_of_mem_none
    refine List.mem_map.mpr ⟨n, hmem, ?_⟩
    simp [unitY, hd]
  rw [separate_eq, if_neg hne]
  have ha : average ((within b 50 L).map (unitX b)) ((within b 50 L).map (unitY b))
      (within b 50 L).length = nanPoint := by
    simp [average, hx, hy, nanPoint]
  rw [ha, blend_nan_right]

theorem cohesion_of_nan_velocity (b : Boid K) (L : List (Boid K))
    (hv : b.velocity = nanPoint) : b.cohesion L = b := by
  rw [cohesion_eq]
  split
  · rfl
  · rw [hv, blend_nan_left]
    cases b
    simp_all

/-- Run on a list that holds an entry at the position of `b`, `flock` leaves
`afterFlock b`. -/
theorem flock_of_same_position (b n : Boid K) (L : List (Boid K))
    (hn : n ∈ L) (hp : n.position = b.position) : b.flock L = afterFlock b := by
  unfold Boid.flock afterFlock
  by_cases hfin : b.position.isFinite = true
  · have h1 : (b.align L).position.isFinite = true := by simpa using hfin
    rw [separate_of_same_position (b.align L) n L h1 hn (by simpa using hp)]
    rw [cohesion_of_nan_velocity _ _ rfl]
    simp [hfin]
  · have hf : b.position.isFinite = false := by simpa using hfin
    have a1 : b.align L = b := by
      rw [align_eq, within_of_not_finite b 10 L hf]; simp
    have a2 : b.separate L = b := by
      rw [separate_eq, within_of_not_finite b 50 L hf]; simp
    have a3 : b.cohesion L = b := by
      rw [cohesion_eq, within_of_not_finite b 100 L hf]; simp
    rw [a1, a2, a3]
    simp [hf]

theorem foldl_flockAt_eq_seqPass :
    ∀ (todo done : List (Boid K)),
      (List.range' done.length todo.length).foldl flockAt (done ++ todo) = seqPass done todo := by
  intro todo
  induction todo with
  | nil => intro done; simp [seqPass]
  | cons b rest ih =>
    intro done
    have hi : (done ++ b :: rest)[done.length]? = some b := by
      rw [List.getElem?_append_right (le_refl _)]; simp
    have hset : (done ++ b :: rest).set done.length (b.flock (done ++ b :: rest)) =
        (done ++ [b.flock (done ++ b :: rest)]) ++ rest := by
      rw [List.set_append_right _ _ (le_refl _)]; simp
    rw [List.length_cons, List.range'_succ, List.foldl_cons, flockAt_eq _ _ b hi, hset]
    have hlen : (done ++ [b.flock (done ++ b :: rest)]).length = done.length + 1 := by simp
    rw [← hlen, ih (done ++ [b.flock (done ++ b :: rest)])]
    rfl

theorem velocityPass_eq_seqPass (boids : List (Boid K)) :
    velocityPass boids = seqPass [] boids := by
  have h := foldl_flockAt_eq_seqPass boids []
  simpa [velocityPass, List.range_eq_range'] using h

theorem seqPass_eq_map : ∀ (todo done : List (Boid K)),
    seqPass done todo = done ++ todo.map afterFlock := by
  intro todo
  induction todo with
  | nil => intro done; simp [seqPass]
  | cons b rest ih =>
    intro done
    have hb : b.flock (done ++ b :: rest) = afterFlock b :=
      flock_of_same_position b b _ (by simp) rfl
    rw [seqPass, hb, ih]
    simp

/-- The velocity pass of `main` treats every agent on its own: it leaves
`afterFlock b` in every agent `b`. -/
theorem velocityPass_eq_map (boids : List (Boid K)) :
    velocityPass boids = boids.map afterFlock := by
  rw [velocityPass_eq_seqPass, seqPass_eq_map]; simp

theorem tick_eq_map (boids : List (Boid K)) :
    tick boids = boids.map (fun b => (afterFlock b).updatePosition) := by
  simp [tick, positionPass, velocityPass_eq_map]

theorem distance_mk4_self (px py vx vy wx wy : K) :
    (Boid.mk4 px py vx vy).distance (Boid.mk4 px py wx wy) = some 0 :=
  distance_mk4_eq _ _ _ _ _ _ _ _ 0 le_rfl (by ring)

theorem distance_mk4_same_y (px qx y vx vy wx wy : K) :
    (Boid.mk4 px y vx vy).distance (Boid.mk4 qx y wx wy) = some |px - qx| :=
  distance_mk4_eq _ _ _ _ _ _ _ _ |px - qx| (abs_nonneg _) (by rw [abs_mul_abs_self]; ring)

/-- C1 (the code counts the agent itself). For the single-agent flock `[b]` of
any agent `b` with finite coordinates, run as `main` does with
`b.flock(boids)`: each of the three loops ends with `count = 1`, the entry
counted being `b` itself at distance 0, and `flock` leaves a NaN velocity in
`b` instead of leaving the velocity unchanged. -/
theorem single_agent_counts_itself (px py vx vy : K) :
    (Boid.mk4 px py vx vy).distance (Boid.mk4 px py vx vy) = some 0 ∧
    (alignLoop (Boid.mk4 px py vx vy) [Boid.mk4 px py vx vy]).count = 1 ∧
    (separateLoop (Boid.mk4 px py vx vy) [Boid.mk4 px py vx vy]).count = 1 ∧
    (cohesionLoop (Boid.mk4 px py vx vy) [Boid.mk4 px py vx vy]).count = 1 ∧
    flockAt [Boid.mk4 px py vx vy] 0 =
      [{ position := { x := some px, y := some py }, velocity := nanPoint }] := by
  have d0 := distance_mk4_self px py vx vy vx vy
  have c10 : flt ((Boid.mk4 px py vx vy).distance (Boid.mk4 px py vx vy)) (some 10) = true := by
    rw [d0]; norm_num
  have c50 : flt ((Boid.mk4 px py vx vy).distance (Boid.mk4 px py vx vy)) (some 50) = true := by
    rw [d0]; norm_num
  have c100 : flt ((Boid.mk4 px py vx vy).distance (Boid.mk4 px py vx vy)) (some 100) = true := by
    rw [d0]; norm_num
  refine ⟨d0, ?_, ?_, ?_, ?_⟩
  · rw [alignLoop_eq, within_cons_of_lt _ _ _ _ c10]; simp
  · rw [separateLoop_eq, within_cons_of_lt _ _ _ _ c50]; simp
  · rw [cohesionLoop_eq, within_cons_of_lt _ _ _ _ c100]; simp
  · rw [flockAt_eq _ 0 (Boid.mk4 px py vx vy) rfl,
      flock_of_same_position _ (Boid.mk4 px py vx vy) _ (by simp) rfl]
    simp [afterFlock, Boid.mk4, Point.isFinite]

/-- C2 (an isolated agent does not keep its velocity). In the flock of two
agents at (0,0) and (1000,0), both with velocity (1,1), the agents are 1000
apart, farther than 100; yet `flock` run for the first against the whole
flock, as `main` does, leaves it a NaN velocity instead of (1,1), and after one
tick its position is (NaN, NaN) instead of (1,1). -/
theorem isolated_agent_velocity_nan :
    (Boid.mk4 0 0 1 1 : Boid ℝ).distance (Boid.mk4 1000 0 1 1) = some 1000 ∧
    flockAt [(Boid.mk4 0 0 1 1 : Boid ℝ), Boid.mk4 1000 0 1 1] 0 =
      [({ position := { x := some 0, y := some 0 }, velocity := nanPoint } : Boid ℝ),
        Boid.mk4 1000 0 1 1] ∧
    tick [(Boid.mk4 0 0 1 1 : Boid ℝ), Boid.mk4 1000 0 1 1] =
      [{ position := nanPoint, velocity := nanPoint },
        { position := nanPoint, velocity := nanPoint }] := by
  refine ⟨distance_mk4_eq _ _ _ _ _ _ _ _ 1000 (by norm_num) (by norm_num), ?_, ?_⟩
  · rw [flockAt_eq _ 0 (Boid.mk4 0 0 1 1) rfl,
      flock_of_same_position _ (Boid.mk4 0 0 1 1) _ (by simp) rfl]
    simp [afterFlock, Boid.mk4, Point.isFinite]
  · rw [tick_eq_map]
    simp [afterFlock, Boid.mk4, Point.isFinite, Boid.updatePosition, nanPoint]

/-- C3. `align` averages the velocities of the entries strictly within 10 of
`b` and blends: with `N` those entries, the result is `b` when `N` is empty and
otherwise `b` with velocity `(v + (sum of the velocities of N) / |N|) / 2`.
For boids at (0,0) and (5,0) with velocity (0,0), `align` on the first gives
velocity (0,0), whether or not the list holds the first boid itself. -/
theorem align_spec :
    (∀ (b : Boid K) (L : List (Boid K)),
      b.align L =
        if within b 10 L = [] then b
        else { b with velocity := blend b.velocity (average
                ((within b 10 L).map fun n => n.velocity.x)
                ((within b 10 L).map fun n => n.velocity.y) (within b 10 L).length) }) ∧
    (Boid.mk4 0 0 0 0 : Boid K).align [Boid.mk4 5 0 0 0] = Boid.mk4 0 0 0 0 ∧
    (Boid.mk4 0 0 0 0 : Boid K).align [Boid.mk4 0 0 0 0, Boid.mk4 5 0 0 0] = Boid.mk4 0 0 0 0 := by
  have key : ∀ (b : Boid K) (L : List (Boid K)), _ := align_eq
  have c5 : flt ((Boid.mk4 0 0 0 0 : Boid K).distance (Boid.mk4 5 0 0 0)) (some 10) = true := by
    rw [distance_mk4_eq _ _ _ _ _ _ _ _ 5 (by norm_num) (by norm_num)]
    norm_num
  have c0 : flt ((Boid.mk4 0 0 0 0 : Boid K).distance (Boid.mk4 0 0 0 0)) (some 10) = true := by
    rw [distance_mk4_eq _ _ _ _ _ _ _ _ 0 le_rfl (by norm_num)]
    norm_num
  refine ⟨key, ?_, ?_⟩
  · rw [key]
    simp only [within_cons_of_lt _ _ _ _ c5, within_nil]
    norm_num [Boid.mk4, blend, average, fdiv]
  · rw [key]
    simp only [within_cons_of_lt _ _ _ _ c5, within_cons_of_lt _ _ _ _ c0, within_nil]
    norm_num [Boid.mk4, blend, average, fdiv]

/-- C4. `separate` averages the unit vectors pointing from the entries
strictly within 50 of `b` towards `b` and blends: when no such entry is at
distance 0 from `b`, with `N` those entries, the result is `b` when `N` is empty
and otherwise `b` with velocity `(v + U) / 2`, where `U` is the average over `N`
of `(b.position - n.position) / distance(b, n)`. -/
theorem separate_spec (b : Boid K) (L : List (Boid K))
    (_h0 : ∀ n ∈ L, flt (b.distance n) (some 50) = true → b.distance n ≠ some 0) :
    b.separate L =
      if within b 50 L = [] then b
      else { b with velocity := blend b.velocity (average
              ((within b 50 L).map (unitX b)) ((within b 50 L).map (unitY b))
              (within b 50 L).length) } := by
  unfold Boid.separate
  rw [separateLoop_eq]
  by_cases h : within b 50 L = []
  · simp [h]
  · have hl : 0 < (within b 50 L).length := List.length_pos.mpr h
    simp [h, hl, blend, average]

/-- C4, at a concrete input: for `b` at (0,0) with velocity (1,1) and entries
at (3,4) and (100,0), only the first is within 50, at distance 5, and
`separate` gives velocity ((1 - 3/5) / 2, (1 - 4/5) / 2). -/
theorem separate_spec_witness :
    (∀ n ∈ [(Boid.mk4 3 4 0 0 : Boid ℝ), Boid.mk4 100 0 0 0],
      flt ((Boid.mk4 0 0 1 1 : Boid ℝ).distance n) (some 50) = true →
        (Boid.mk4 0 0 1 1 : Boid ℝ).distance n ≠ some 0) ∧
    (Boid.mk4 0 0 1 1 : Boid ℝ).separate [Boid.mk4 3 4 0 0, Boid.mk4 100 0 0 0] =
      Boid.mk4 0 0 (1 / 5) (1 / 10) := by
  have d5 : (Boid.mk4 0 0 1 1 : Boid ℝ).distance (Boid.mk4 3 4 0 0) = some 5 :=
    distance_mk4_eq _ _ _ _ _ _ _ _ 5 (by norm_num) (by norm_num)
  have d100 : (Boid.mk4 0 0 1 1 : Boid ℝ).distance (Boid.mk4 100 0 0 0) = some 100 :=
    distance_mk4_eq _ _ _ _ _ _ _ _ 100 (by norm_num) (by norm_num)
  have hyp : ∀ n ∈ [(Boid.mk4 3 4 0 0 : Boid ℝ), Boid.mk4 100 0 0 0],
      flt ((Boid.mk4 0 0 1 1 : Boid ℝ).distance n) (some 50) = true →
        (Boid.mk4 0 0 1 1 : Boid ℝ).distance n ≠ some 0 := by
    intro n hn _
    simp only [List.mem_cons, List.mem_singleton, List.not_mem_nil, or_false] at hn
    rcases hn with rfl | rfl
    · rw [d5]; norm_num
    · rw [d100]; norm_num
  refine ⟨hyp, ?_⟩
  rw [separate_spec _ _ hyp]
  have c5 : flt ((Boid.mk4 0 0 1 1 : Boid ℝ).distance (Boid.mk4 3 4 0 0)) (some 50) = true := by
    rw [d5]; norm_num
  have c100 : flt ((Boid.mk4 0 0 1 1 : Boid ℝ).distance (Boid.mk4 100 0 0 0)) (some 50)
      = false := by
    rw [d100]; norm_num
  simp only [within_cons_of_lt _ _ _ _ c5, within_cons_of_not_lt _ _ _ _ c100, within_nil]
  simp only [List.map, unitX, unitY, d5]
  norm_num [Boid.mk4, blend, average, fdiv]

/-- C5. `cohesion` averages the positions of the entries strictly within 100
of `b` and blends with the raw offset: with `N` those entries, the result is `b`
when `N` is empty and otherwise `b` with velocity `(v + direction) / 2`, where
`direction = (sum of the positions of N) / |N| - b.position`. -/
theorem cohesion_spec (b : Boid K) (L : List (Boid K)) :
    b.cohesion L =
      if within b 100 L = [] then b
      else { b with velocity := blend b.velocity (Point.mk
              (fsub (average ((within b 100 L).map fun n => n.position.x)
                      ((within b 100 L).map fun n => n.position.y)
                      (within b 100 L).length).x b.position.x)
              (fsub (average ((within b 100 L).map fun n => n.position.x)
                      ((within b 100 L).map fun n => n.position.y)
                      (within b 100 L).length).y b.position.y)) } := by
  unfold Boid.cohesion
  rw [cohesionLoop_eq]
  by_cases h : within b 100 L = []
  · simp [h]
  · have hl : 0 < (within b 100 L).length := List.length_pos.mpr h
    simp [h, hl, blend, average]

/-- C6, as stated, fails. For the single-agent flock of an agent at (100,100)
with velocity (1,1), the velocity pass of `main` leaves a NaN velocity, while
the agent treated against all the other agents (there is none) keeps (1,1).
And the rules do read agents already updated: in the flock of `a` at (0,0) with
velocity (1,1) and `b` at (3,4) with velocity (2,0), once `a` has been treated,
`align` run for `b` reads the new, NaN, velocity of `a` and gives `b` a NaN
velocity, where the pre-tick flock would give (7/4, 1/4). -/
theorem velocityPass_ne_snapshotPass :
    (¬ ∀ boids : List (Boid ℝ),
        (velocityPass boids).map (fun b => b.velocity) =
          (snapshotPass boids).map (fun b => b.velocity)) ∧
    alignAt (flockAt [(Boid.mk4 0 0 1 1 : Boid ℝ), Boid.mk4 3 4 2 0] 0) 1 =
      [{ position := { x := some 0, y := some 0 }, velocity := nanPoint },
        { position := { x := some 3, y := some 4 }, velocity := nanPoint }] ∧
    alignAt [(Boid.mk4 0 0 1 1 : Boid ℝ), Boid.mk4 3 4 2 0] 1 =
      [Boid.mk4 0 0 1 1, Boid.mk4 3 4 (7 / 4) (1 / 4)] := by
  refine ⟨?_, ?_, ?_⟩
  · intro h
    have h1 := h [Boid.mk4 100 100 1 1]
    rw [velocityPass_eq_map] at h1
    simp [snapshotPass, snapshotFrom, Boid.flock, Boid.align, Boid.separate, Boid.cohesion,
      alignLoop, separateLoop, cohesionLoop, Acc.zero, afterFlock, Boid.mk4, Point.isFinite,
      nanPoint] at h1
  · have hf : flockAt [(Boid.mk4 0 0 1 1 : Boid ℝ), Boid.mk4 3 4 2 0] 0 =
        [({ position := { x := some 0, y := some 0 }, velocity := nanPoint } : Boid ℝ),
          Boid.mk4 3 4 2 0] := by
      rw [flockAt_eq _ 0 (Boid.mk4 0 0 1 1) rfl,
        flock_of_same_position _ (Boid.mk4 0 0 1 1) _ (by simp) rfl]
      simp [afterFlock, Boid.mk4, Point.isFinite]
    have c1 : flt ((Boid.mk4 3 4 2 0 : Boid ℝ).distance
        { position := { x := some 0, y := some 0 }, velocity := nanPoint }) (some 10) = true := by
      rw [distance_eq _ _ 3 4 0 0 5 rfl rfl (by norm_num) (by norm_num)]; norm_num
    have c2 : flt ((Boid.mk4 3 4 2 0 : Boid ℝ).distance (Boid.mk4 3 4 2 0)) (some 10) = true := by
      rw [distance_mk4_self]; norm_num
    rw [hf]
    simp only [alignAt, List.getElem?_cons_succ, List.getElem?_cons_zero, align_eq,
      within_cons_of_lt _ _ _ _ c1, within_cons_of_lt _ _ _ _ c2, within_nil,
      if_neg (List.cons_ne_nil _ _)]
    simp [Boid.mk4, blend, average, nanPoint]
  · have c1 : flt ((Boid.mk4 3 4 2 0 : Boid ℝ).distance (Boid.mk4 0 0 1 1)) (some 10) = true := by
      rw [distance_mk4_eq _ _ _ _ _ _ _ _ 5 (by norm_num) (by norm_num)]; norm_num
    have c2 : flt ((Boid.mk4 3 4 2 0 : Boid ℝ).distance (Boid.mk4 3 4 2 0)) (some 10) = true := by
      rw [distance_mk4_self]; norm_num
    simp only [alignAt, List.getElem?_cons_succ, List.getElem?_cons_zero, align_eq,
      within_cons_of_lt _ _ _ _ c1, within_cons_of_lt _ _ _ _ c2, within_nil,
      if_neg (List.cons_ne_nil _ _)]
    norm_num [Boid.mk4, blend, average, fdiv]

/-- C6, amended. The velocity pass of `main` works in place, agent by agent in
flock order: every agent is treated by `flock` against the flock list as it
stands when its turn comes, in which the agents ahead of it hold the velocity
this pass gave them and the others their pre-tick velocity; and the pass
changes no position. -/
theorem velocityPass_sequential (boids : List (Boid K)) :
    velocityPass boids = seqPass [] boids ∧
    (velocityPass boids).map (fun b => b.position) = boids.map (fun b => b.position) := by
  refine ⟨velocityPass_eq_seqPass boids, ?_⟩
  rw [velocityPass_eq_map, List.map_map]
  apply List.map_congr_left
  intro b _
  simp only [Function.comp, afterFlock]
  split <;> rfl

/-- C7. One tick gives every agent the same new position and velocity in
whatever order the flock lists the agents: for flocks `F` and `F'` that are
permutations of each other, the pairs (agent before the tick, agent after the
tick) of `F'` are a permutation of those of `F`, and so are the flocks after
the tick. -/
theorem tick_perm (F F' : List (Boid K)) (h : F.Perm F') :
    (F.zip (tick F)).Perm (F'.zip (tick F')) ∧ (tick F).Perm (tick F') := by
  have hz : ∀ G : List (Boid K),
      G.zip (tick G) = G.map (fun b => (b, (afterFlock b).updatePosition)) := by
    intro G
    rw [tick_eq_map, List.zip_map_right]
    induction G with
    | nil => rfl
    | cons b G ih => simp [ih]
  refine ⟨?_, ?_⟩
  · rw [hz, hz]; exact h.map _
  · rw [tick_eq_map, tick_eq_map]; exact h.map _

/-- C7 on the flocks `[a, b]` and `[b, a]` with `a` at (0,0) and `b` at (3,4). -/
theorem tick_perm_witness :
    [(Boid.mk4 0 0 1 1 : Boid ℝ), Boid.mk4 3 4 2 0].Perm [Boid.mk4 3 4 2 0, Boid.mk4 0 0 1 1] ∧
    (([(Boid.mk4 0 0 1 1 : Boid ℝ), Boid.mk4 3 4 2 0].zip
        (tick [(Boid.mk4 0 0 1 1 : Boid ℝ), Boid.mk4 3 4 2 0])).Perm
      ([(Boid.mk4 3 4 2 0 : Boid ℝ), Boid.mk4 0 0 1 1].zip
        (tick [(Boid.mk4 3 4 2 0 : Boid ℝ), Boid.mk4 0 0 1 1])) ∧
     (tick [(Boid.mk4 0 0 1 1 : Boid ℝ), Boid.mk4 3 4 2 0]).Perm
      (tick [(Boid.mk4 3 4 2 0 : Boid ℝ), Boid.mk4 0 0 1 1])) :=
  ⟨List.Perm.swap _ _ _, tick_perm _ _ (List.Perm.swap _ _ _)⟩

/-- C8. `updatePosition` sets the position to position + velocity and keeps
the velocity; hence one tick keeps the number of agents and leaves every agent
at its pre-tick position plus the velocity it holds at the end of the tick's
velocity pass, with that velocity. -/
theorem updatePosition_spec :
    (∀ b : Boid K,
      b.updatePosition =
        { position := { x := fadd b.position.x b.velocity.x
                        y := fadd b.position.y b.velocity.y }
          velocity := b.velocity }) ∧
    (∀ boids : List (Boid K),
      (velocityPass boids).length = boids.length ∧
      tick boids =
        List.zipWith
          (fun b b' =>
            { position := { x := fadd b.position.x b'.velocity.x
                            y := fadd b.position.y b'.velocity.y }
              velocity := b'.velocity })
          boids (velocityPass boids)) := by
  refine ⟨fun b => rfl, fun boids => ⟨?_, ?_⟩⟩
  · rw [velocityPass_eq_map, List.length_map]
  · rw [tick_eq_map, velocityPass_eq_map]
    induction boids with
    | nil => rfl
    | cons b boids ih =>
      rw [List.map_cons, List.map_cons, List.zipWith_cons_cons, ← ih]
      congr 1
      unfold Boid.updatePosition afterFlock
      split <;> rfl

/-- C9 (the reference run yields NaN). In the flock of `main` no agent has
another agent strictly within 100 units, the adjacent ones being exactly 100
apart; yet after one tick the four positions are (NaN, NaN), and so are the
four velocities, instead of (101,101), (201,101), (301,101), (401,101) with
velocity (1,1). -/
theorem reference_run_one_tick :
    (Boid.mk4 100 100 1 1 : Boid K).distance (Boid.mk4 200 100 1 1) = some 100 ∧
    (∀ a ∈ (mainBoids : List (Boid K)), ∀ n ∈ (mainBoids : List (Boid K)),
      n ≠ a → flt (a.distance n) (some 100) = false) ∧
    tick (mainBoids : List (Boid K)) =
      [{ position := nanPoint, velocity := nanPoint },
        { position := nanPoint, velocity := nanPoint },
        { position := nanPoint, velocity := nanPoint },
        { position := nanPoint, velocity := nanPoint }] := by
  refine ⟨distance_mk4_eq _ _ _ _ _ _ _ _ 100 (by norm_num) (by norm_num), ?_, ?_⟩
  · intro a ha n hn hne
    simp only [mainBoids, List.mem_cons, List.mem_singleton, List.not_mem_nil, or_false]
      at ha hn
    rcases ha with rfl | rfl | rfl | rfl <;> rcases hn with rfl | rfl | rfl | rfl <;>
      first
      | exact absurd rfl hne
      | (rw [distance_mk4_same_y]; norm_num)
  · rw [tick_eq_map]
    simp [mainBoids, afterFlock, Boid.mk4, Point.isFinite, Boid.updatePosition, nanPoint]

/-- C10. `flock` is `align`, then `separate`, then `cohesion`, and the order
shows: for `b` at (0,0) with velocity (0,0) and the single entry at (5,0) with
velocity (0,0), at distance 5 from `b`, `flock` gives velocity (9/4, 0) while
the order `cohesion`, `separate`, `align` gives (3/8, 0). -/
theorem flock_order_matters :
    (∀ (b : Boid K) (L : List (Boid K)),
      b.flock L = ((b.align L).separate L).cohesion L) ∧
    ∃ (b : Boid K) (L : List (Boid K)),
      (∀ n ∈ L, b.distance n ≠ some 0) ∧
      (b.flock L).velocity ≠ (((b.cohesion L).separate L).align L).velocity := by
  refine ⟨fun b L => rfl, Boid.mk4 0 0 0 0, [Boid.mk4 5 0 0 0], ?_, ?_⟩
  · intro n hn
    rw [List.mem_singleton] at hn
    subst hn
    rw [distance_mk4_eq _ _ _ _ _ _ _ _ 5 (by norm_num) (by norm_num)]
    norm_num
  · have d5 : ∀ vx vy : K, (Boid.mk4 0 0 vx vy).distance (Boid.mk4 5 0 0 0) = some 5 :=
      fun vx vy => distance_mk4_eq _ _ _ _ _ _ _ _ 5 (by norm_num) (by norm_num)
    have c10 : ∀ vx vy : K,
        flt ((Boid.mk4 0 0 vx vy).distance (Boid.mk4 5 0 0 0)) (some 10) = true := by
      intro vx vy; rw [d5]; norm_num
    have c50 : ∀ vx vy : K,
        flt ((Boid.mk4 0 0 vx vy).distance (Boid.mk4 5 0 0 0)) (some 50) = true := by
      intro vx vy; rw [d5]; norm_num
    have c100 : ∀ vx vy : K,
        flt ((Boid.mk4 0 0 vx vy).distance (Boid.mk4 5 0 0 0)) (some 100) = true := by
      intro vx vy; rw [d5]; norm_num
    have ea : ∀ vx vy : K, (Boid.mk4 0 0 vx vy).align [Boid.mk4 5 0 0 0] =
        Boid.mk4 0 0 (vx / 2) (vy / 2) := by
      intro vx vy
      rw [align_eq]
      simp only [within_cons_of_lt _ _ _ _ (c10 vx vy), within_nil]
      norm_num [Boid.mk4, blend, average, fdiv]
    have es : ∀ vx vy : K, (Boid.mk4 0 0 vx vy).separate [Boid.mk4 5 0 0 0] =
        Boid.mk4 0 0 ((vx + -1) / 2) (vy / 2) := by
      intro vx vy
      rw [separate_eq]
      simp only [within_cons_of_lt _ _ _ _ (c50 vx vy), within_nil]
      simp only [List.map, unitX, unitY, d5]
      norm_num [Boid.mk4, blend, average, fdiv]
    have ec : ∀ vx vy : K, (Boid.mk4 0 0 vx vy).cohesion [Boid.mk4 5 0 0 0] =
        Boid.mk4 0 0 ((vx + 5) / 2) (vy / 2) := by
      intro vx vy
      rw [cohesion_eq]
      simp only [within_cons_of_lt _ _ _ _ (c100 vx vy), within_nil]
      norm_num [Boid.mk4, blend, average, fdiv]
    unfold Boid.flock
    rw [ea, es, ec, ec, es, ea]
    norm_num [Boid.mk4]

theorem alignLoop_single (b n : Boid K) :
    (alignLoop b [n]).count = if flt (b.distance n) (some 10) then 1 else 0 := by
  rw [alignLoop_eq]
  by_cases h : flt (b.distance n) (some 10) = true
  · simp [within_cons_of_lt _ _ _ _ h, h]
  · have h' : flt (b.distance n) (some 10) = false := by simpa using h
    simp [within_cons_of_not_lt _ _ _ _ h', h']

theorem separateLoop_single (b n : Boid K) :
    (separateLoop b [n]).count = if flt (b.distance n) (some 50) then 1 else 0 := by
  rw [separateLoop_eq]
  by_cases h : flt (b.distance n) (some 50) = true
  · simp [within_cons_of_lt _ _ _ _ h, h]
  · have h' : flt (b.distance n) (some 50) = false := by simpa using h
    simp [within_cons_of_not_lt _ _ _ _ h', h']

theorem cohesionLoop_single (b n : Boid K) :
    (cohesionLoop b [n]).count = if flt (b.distance n) (some 100) then 1 else 0 := by
  rw [cohesionLoop_eq]
  by_cases h : flt (b.distance n) (some 100) = true
  · simp [within_cons_of_lt _ _ _ _ h, h]
  · have h' : flt (b.distance n) (some 100) = false := by simpa using h
    simp [within_cons_of_not_lt _ _ _ _ h', h']

theorem flt_mono_right (d : Float64 K) (r r' : K) (hr : r ≤ r')
    (h : flt d (some r) = true) : flt d (some r') = true := by
  cases d with
  | none => simp at h
  | some x =>
    simp only [flt_some, decide_eq_true_eq] at h ⊢
    exact lt_of_lt_of_le h hr

theorem within_sublist (b : Boid K) (r r' : K) (hr : r ≤ r') (L : List (Boid K)) :
    (within b r L).Sublist (within b r' L) := by
  induction L with
  | nil => simp
  | cons n L ih =>
    by_cases h : flt (b.distance n) (some r) = true
    · rw [within_cons_of_lt _ _ _ _ h,
        within_cons_of_lt _ _ _ _ (flt_mono_right _ r r' hr h)]
      exact ih.cons₂ n
    · have h' : flt (b.distance n) (some r) = false := by simpa using h
      rw [within_cons_of_not_lt _ _ _ _ h']
      by_cases h2 : flt (b.distance n) (some r') = true
      · rw [within_cons_of_lt _ _ _ _ h2]
        exact ih.cons n
      · have h2' : flt (b.distance n) (some r') = false := by simpa using h2
        rw [within_cons_of_not_lt _ _ _ _ h2']
        exact ih

theorem distance_comm (a b : Boid K) : a.distance b = b.distance a := by
  rcases a with ⟨⟨ax, ay⟩, va⟩
  rcases b with ⟨⟨bx, bY⟩, vb⟩
  cases ax <;> cases ay <;> cases bx <;> cases bY <;> simp [Boid.distance]
  congr 2
  ring

/-- C12, as stated, fails: no pair of boids has the second counted by `align`
and not by `separate`, so the two pairs the claim asks for do not both exist. -/
theorem no_align_only_neighbour :
    ¬ ((∃ b n : Boid ℝ, (separateLoop b [n]).count = 1 ∧ (alignLoop b [n]).count = 0) ∧
       (∃ b n : Boid ℝ, (alignLoop b [n]).count = 1 ∧ (separateLoop b [n]).count = 0)) := by
  rintro ⟨-, b, n, ha, hs⟩
  rw [alignLoop_single] at ha
  rw [separateLoop_single] at hs
  by_cases h : flt (b.distance n) (some 10) = true
  · have h2 := flt_mono_right _ (10 : ℝ) 50 (by norm_num) h
    simp [h2] at hs
  · simp [h] at ha

/-- C12, amended. An entry can be counted by `separate` (distance < 50)
without being counted by `align` (distance < 10), as for two boids 30 apart, but
not the other way round: the entries counted by `align` are among those counted
by `separate`, and `align` never counts more entries than `separate`. -/
theorem radii_nested :
    (∃ b n : Boid K, (separateLoop b [n]).count = 1 ∧ (alignLoop b [n]).count = 0) ∧
    (∀ (b : Boid K) (L : List (Boid K)), (within b 10 L).Sublist (within b 50 L)) ∧
    (∀ (b : Boid K) (L : List (Boid K)), (alignLoop b L).count ≤ (separateLoop b L).count) := by
  refine ⟨⟨Boid.mk4 0 0 0 0, Boid.mk4 30 0 0 0, ?_, ?_⟩, ?_, ?_⟩
  · rw [separateLoop_single, distance_mk4_eq _ _ _ _ _ _ _ _ 30 (by norm_num) (by norm_num)]
    norm_num
  · rw [alignLoop_single, distance_mk4_eq _ _ _ _ _ _ _ _ 30 (by norm_num) (by norm_num)]
    norm_num
  · exact fun b L => within_sublist b 10 50 (by norm_num) L
  · intro b L
    rw [alignLoop_eq, separateLoop_eq]
    exact (within_sublist b 10 50 (by norm_num) L).length_le

/-- C13. Two boids whose positions are exactly 30 apart count each other in
`separate` (30 < 50) and in `cohesion` (30 < 100) and not in `align` (30 is not
below 10). -/
theorem radius_ordering (a b : Boid K) (h : a.distance b = some 30) :
    (separateLoop a [b]).count = 1 ∧ (separateLoop b [a]).count = 1 ∧
    (cohesionLoop a [b]).count = 1 ∧ (cohesionLoop b [a]).count = 1 ∧
    (alignLoop a [b]).count = 0 ∧ (alignLoop b [a]).count = 0 := by
  have h' : b.distance a = some 30 := by rw [distance_comm, h]
  simp only [separateLoop_single, cohesionLoop_single, alignLoop_single, h, h']
  norm_num

/-- C13 for the boids at (0,0) and (18,24), which are 30 apart. -/
theorem radius_ordering_witness :
    (Boid.mk4 0 0 1 1 : Boid ℝ).distance (Boid.mk4 18 24 0 2) = some 30 ∧
    (separateLoop (Boid.mk4 0 0 1 1 : Boid ℝ) [Boid.mk4 18 24 0 2]).count = 1 ∧
    (separateLoop (Boid.mk4 18 24 0 2 : Boid ℝ) [Boid.mk4 0 0 1 1]).count = 1 ∧
    (cohesionLoop (Boid.mk4 0 0 1 1 : Boid ℝ) [Boid.mk4 18 24 0 2]).count = 1 ∧
    (cohesionLoop (Boid.mk4 18 24 0 2 : Boid ℝ) [Boid.mk4 0 0 1 1]).count = 1 ∧
    (alignLoop (Boid.mk4 0 0 1 1 : Boid ℝ) [Boid.mk4 18 24 0 2]).count = 0 ∧
    (alignLoop (Boid.mk4 18 24 0 2 : Boid ℝ) [Boid.mk4 0 0 1 1]).count = 0 :=
  ⟨distance_mk4_eq _ _ _ _ _ _ _ _ 30 (by norm_num) (by norm_num),
    radius_ordering _ _ (distance_mk4_eq _ _ _ _ _ _ _ _ 30 (by norm_num) (by norm_num))⟩

/-- C14. The distance is symmetric, `a.distance(b) = b.distance(a)` for every
two boids (both NaN when a coordinate is NaN), and for finite positions it is
`sqrt(dx*dx + dy*dy)` of the position difference. -/
theorem distance_symm :
    (∀ a b : Boid K, a.distance b = b.distance a) ∧
    (∀ px py vx vy qx qy wx wy : K,
      (Boid.mk4 px py vx vy).distance (Boid.mk4 qx qy wx wy) =
        some (SqrtField.sqrt ((px - qx) * (px - qx) + (py - qy) * (py - qy)))) :=
  ⟨distance_comm, distance_mk4⟩

omit [SqrtField K] in
theorem eraseIdx_set_self (bs : List (Boid K)) (i : Nat) (b : Boid K) :
    (bs.set i b).eraseIdx i = bs.eraseIdx i := by
  induction bs generalizing i with
  | nil => rfl
  | cons a bs ih =>
    cases i with
    | zero => rfl
    | succ i => simp [ih]

omit [SqrtField K] in
theorem frame_of_set (bs : List (Boid K)) (i : Nat) (b b' : Boid K)
    (hi : bs[i]? = some b) (hp : b'.position = b.position) :
    (bs.set i b').length = bs.length ∧
    (bs.set i b').map (fun n => n.position) = bs.map (fun n => n.position) ∧
    (bs.set i b').eraseIdx i = bs.eraseIdx i :=
  ⟨List.length_set _ _ _, map_position_set bs i b b' hi hp, eraseIdx_set_self bs i b'⟩

/-- C15. Run for the agent at index `i` of a flock, each of `align`,
`separate`, `cohesion` and `flock` keeps the number of agents, keeps every
position (that of the agent included) and keeps every other agent as it was, so
only the velocity of that agent can change; and the velocity pass of a tick
changes no position. -/
theorem rules_frame (boids : List (Boid K)) (i : Nat) :
    ((alignAt boids i).length = boids.length ∧
      (alignAt boids i).map (fun n => n.position) = boids.map (fun n => n.position) ∧
      (alignAt boids i).eraseIdx i = boids.eraseIdx i) ∧
    ((separateAt boids i).length = boids.length ∧
      (separateAt boids i).map (fun n => n.position) = boids.map (fun n => n.position) ∧
      (separateAt boids i).eraseIdx i = boids.eraseIdx i) ∧
    ((cohesionAt boids i).length = boids.length ∧
      (cohesionAt boids i).map (fun n => n.position) = boids.map (fun n => n.position) ∧
      (cohesionAt boids i).eraseIdx i = boids.eraseIdx i) ∧
    ((flockAt boids i).length = boids.length ∧
      (flockAt boids i).map (fun n => n.position) = boids.map (fun n => n.position) ∧
      (flockAt boids i).eraseIdx i = boids.eraseIdx i) ∧
    (velocityPass boids).length = boids.length ∧
    (velocityPass boids).map (fun n => n.position) = boids.map (fun n => n.position) := by
  have hv : (velocityPass boids).map (fun n => n.position) =
      boids.map (fun n => n.position) := by
    rw [velocityPass_eq_map, List.map_map]
    apply List.map_congr_left
    intro b _
    simp only [Function.comp, afterFlock]
    split <;> rfl
  have hl : (velocityPass boids).length = boids.length := by
    rw [velocityPass_eq_map, List.length_map]
  cases hi : boids[i]? with
  | none =>
    have h4 := flockAt_of_none boids i hi
    simp [alignAt, separateAt, cohesionAt, hi, h4, hv, hl]
  | some b =>
    have h1 : alignAt boids i = boids.set i (b.align boids) := by simp [alignAt, hi]
    have h2 : separateAt boids i = boids.set i (b.separate boids) := by simp [separateAt, hi]
    have h3 : cohesionAt boids i = boids.set i (b.cohesion boids) := by simp [cohesionAt, hi]
    rw [h1, h2, h3, flockAt_eq boids i b hi]
    exact ⟨frame_of_set boids i b _ hi (align_position b boids),
      frame_of_set boids i b _ hi (separate_position b boids),
      frame_of_set boids i b _ hi (cohesion_position b boids),
      frame_of_set boids i b _ hi (flock_position b boids), hl, hv⟩

theorem fsum_perm (l l' : List (Float64 K)) (h : l.Perm l') : fsum l = fsum l' := by
  induction h with
  | nil => rfl
  | cons a _ ih => rw [fsum_cons, fsum_cons, ih]
  | swap a b l =>
    simp only [fsum_cons]
    rw [← fadd_assoc, ← fadd_assoc, fadd_comm b a]
  | trans _ _ ih1 ih2 => rw [ih1, ih2]

theorem within_perm (b : Boid K) (r : K) (L L' : List (Boid K)) (h : L.Perm L') :
    (within b r L).Perm (within b r L') :=
  h.filter _

theorem average_perm (N N' : List (Boid K)) (f g : Boid K → Float64 K) (h : N.Perm N') :
    average (N.map f) (N.map g) N.length = average (N'.map f) (N'.map g) N'.length := by
  unfold average
  rw [fsum_perm _ _ (h.map f), fsum_perm _ _ (h.map g), h.length_eq]

theorem align_perm (b : Boid K) (L L' : List (Boid K)) (h : L.Perm L') :
    b.align L = b.align L' := by
  have hw := within_perm b 10 L L' h
  rw [align_eq, align_eq, average_perm _ _ _ _ hw]
  by_cases hn : within b 10 L = []
  · have hn' : within b 10 L' = [] := by rw [hn] at hw; exact hw.nil_eq.symm
    simp [hn, hn']
  · have hn' : within b 10 L' ≠ [] := fun e => hn (by rw [e] at hw; exact hw.eq_nil)
    simp [hn, hn']

theorem separate_perm (b : Boid K) (L L' : List (Boid K)) (h : L.Perm L') :
    b.separate L = b.separate L' := by
  have hw := within_perm b 50 L L' h
  rw [separate_eq, separate_eq, average_perm _ _ _ _ hw]
  by_cases hn : within b 50 L = []
  · have hn' : within b 50 L' = [] := by rw [hn] at hw; exact hw.nil_eq.symm
    simp [hn, hn']
  · have hn' : within b 50 L' ≠ [] := fun e => hn (by rw [e] at hw; exact hw.eq_nil)
    simp [hn, hn']

theorem cohesion_perm (b : Boid K) (L L' : List (Boid K)) (h : L.Perm L') :
    b.cohesion L = b.cohesion L' := by
  have hw := within_perm b 100 L L' h
  rw [cohesion_eq, cohesion_eq, average_perm _ _ _ _ hw]
  by_cases hn : within b 100 L = []
  · have hn' : within b 100 L' = [] := by rw [hn] at hw; exact hw.nil_eq.symm
    simp [hn, hn']
  · have hn' : within b 100 L' ≠ [] := fun e => hn (by rw [e] at hw; exact hw.eq_nil)
    simp [hn, hn']

/-- C20. The order of the list does not matter to a rule: for a boid `b`, a
list `L` with no entry at distance 0 from `b` and a permutation `L'` of `L`,
each of `align`, `separate` and `cohesion` gives `b` the same velocity (and
leaves the same boid) from `L'` as from `L`. -/
theorem rules_perm (b : Boid K) (L L' : List (Boid K))
    (_h0 : ∀ n ∈ L, b.distance n ≠ some 0) (hp : L.Perm L') :
    b.align L' = b.align L ∧ b.separate L' = b.separate L ∧
    b.cohesion L' = b.cohesion L :=
  ⟨(align_perm b L L' hp).symm, (separate_perm b L L' hp).symm,
    (cohesion_perm b L L' hp).symm⟩

theorem sqrt_eq_zero_iff (x : K) (hx : 0 ≤ x) : SqrtField.sqrt x = 0 ↔ x = 0 := by
  constructor
  · intro h
    have h2 := SqrtField.sqrt_mul_self x hx
    rw [h] at h2
    simpa using h2.symm
  · intro h
    rw [h, sqrt_zero]

theorem distance_eq_zero_iff (b n : Boid K) :
    b.distance n = some 0 ↔ b.samePosition n = true := by
  rcases b with ⟨⟨bx, bY⟩, vb⟩
  rcases n with ⟨⟨nx, ny⟩, vn⟩
  cases bx <;> cases bY <;> cases nx <;> cases ny <;>
    simp [Boid.distance, Boid.samePosition, feq]
  rename_i px py qx qy
  have h : (0 : K) ≤ (px - qx) * (px - qx) + (py - qy) * (py - qy) :=
    add_nonneg (mul_self_nonneg _) (mul_self_nonneg _)
  rw [fsqrt_some _ h]
  simp only [Option.some.injEq]
  rw [sqrt_eq_zero_iff _ h]
  constructor
  · intro h0
    have h1 : (px - qx) * (px - qx) = 0 := by nlinarith [mul_self_nonneg (px - qx), mul_self_nonneg (py - qy)]
    have h2 : (py - qy) * (py - qy) = 0 := by nlinarith [mul_self_nonneg (px - qx), mul_self_nonneg (py - qy)]
    exact ⟨sub_eq_zero.mp (mul_self_eq_zero.mp h1), sub_eq_zero.mp (mul_self_eq_zero.mp h2)⟩
  · rintro ⟨rfl, rfl⟩
    simp

theorem mem_separateLoopDivisors (b : Boid K) (L : List (Boid K)) (d : Float64 K) :
    d ∈ separateLoopDivisors b L ↔
      ∃ n ∈ L, flt (b.distance n) (some 50) = true ∧ d = b.distance n := by
  induction L with
  | nil => simp [separateLoopDivisors]
  | cons n L ih =>
    have hstep : separateStepDivisors b n =
        if flt (b.distance n) (some 50) then [b.distance n, b.distance n] else [] := rfl
    rw [separateLoopDivisors, List.mem_append, ih, hstep]
    by_cases h : flt (b.distance n) (some 50) = true
    · simp [h]
    · simp [h]

theorem zero_mem_separateLoopDivisors (b : Boid K) (L : List (Boid K)) :
    some 0 ∈ separateLoopDivisors b L ↔ ∃ n ∈ L, b.samePosition n = true := by
  rw [mem_separateLoopDivisors]
  constructor
  · rintro ⟨n, hn, -, h0⟩
    exact ⟨n, hn, (distance_eq_zero_iff b n).mp h0.symm⟩
  · rintro ⟨n, hn, hs⟩
    have h0 := (distance_eq_zero_iff b n).mpr hs
    refine ⟨n, hn, ?_, h0.symm⟩
    rw [h0]; norm_num

theorem zero_mem_separateDivisors (b : Boid K) (L : List (Boid K)) :
    some 0 ∈ separateDivisors b L ↔ ∃ n ∈ L, b.samePosition n = true := by
  rw [← zero_mem_separateLoopDivisors b L]
  unfold separateDivisors
  rw [List.mem_append]
  constructor
  · rintro (h | h)
    · exact h
    · exfalso
      split at h
      · rename_i hc
        have hc' : ((separateLoop b L).count : K) ≠ 0 := Nat.cast_ne_zero.mpr (Nat.pos_iff_ne_zero.mp hc)
        simp [hc', eq_comm] at h
      · simp at h
  · exact fun h => Or.inl h

theorem separateLoopDivisors_of_not_finite (b : Boid K) (L : List (Boid K))
    (hb : b.position.isFinite = false) : separateLoopDivisors b L = [] := by
  induction L with
  | nil => rfl
  | cons n L ih =>
    have hstep : separateStepDivisors b n =
        if flt (b.distance n) (some 50) then [b.distance n, b.distance n] else [] := rfl
    rw [separateLoopDivisors, ih, hstep, distance_of_not_finite b n hb]
    simp

/-- C17, as stated, fails. After the first tick of `main` every agent is at
(NaN, NaN); in the second tick `flock` run for the first agent against the
whole flock counts no entry in `separate`, the agent itself included, and
divides by no distance. -/
theorem second_tick_divides_nothing :
    (¬ ∀ (boids : List (Boid ℝ)) (i : Nat) (b : Boid ℝ), boids[i]? = some b →
        some 0 ∈ separateLoopDivisors (b.align boids) (alignAt boids i)) ∧
    (tick (mainBoids : List (Boid ℝ)))[0]? =
      some { position := nanPoint, velocity := nanPoint } ∧
    separateLoopDivisors
      (({ position := nanPoint, velocity := nanPoint } : Boid ℝ).align (tick mainBoids))
      (alignAt (tick mainBoids) 0) = [] ∧
    (separateLoop
      (({ position := nanPoint, velocity := nanPoint } : Boid ℝ).align (tick mainBoids))
      (alignAt (tick mainBoids) 0)).count = 0 := by
  have ht : tick (mainBoids : List (Boid ℝ)) =
      [{ position := nanPoint, velocity := nanPoint },
        { position := nanPoint, velocity := nanPoint },
        { position := nanPoint, velocity := nanPoint },
        { position := nanPoint, velocity := nanPoint }] := by
    rw [tick_eq_map]
    simp [mainBoids, afterFlock, Boid.mk4, Point.isFinite, Boid.updatePosition, nanPoint]
  have hnf : ∀ L : List (Boid ℝ),
      ((({ position := nanPoint, velocity := nanPoint } : Boid ℝ).align L).position).isFinite
        = false := by
    intro L
    rw [align_position]
    rfl
  have hd := separateLoopDivisors_of_not_finite _ (alignAt (tick mainBoids) 0)
    (hnf (tick mainBoids))
  have h0 : (tick (mainBoids : List (Boid ℝ)))[0]? =
      some { position := nanPoint, velocity := nanPoint } := by rw [ht]; rfl
  refine ⟨?_, h0, hd, ?_⟩
  · intro h
    have h1 := h (tick mainBoids) 0 _ h0
    rw [hd] at h1
    simp at h1
  · rw [separateLoop_eq, within_of_not_finite _ _ _ (hnf (tick mainBoids))]
    rfl

/-- C17, amended. For every flock and every agent `b` in it whose position is
finite, `flock` run for `b` against the whole flock, as `main` does, makes
`separate` count the entry of `b` itself, at distance 0 < 50, and divide by that
distance 0, whatever the positions of the other agents; the call leaves `b` a NaN
velocity. -/
theorem driver_call_divides_by_zero (boids : List (Boid K)) (i : Nat) (b : Boid K)
    (hi : boids[i]? = some b) (hfin : b.position.isFinite = true) :
    (alignAt boids i)[i]? = some (b.align boids) ∧
    (b.align boids).distance (b.align boids) = some 0 ∧
    b.align boids ∈ within (b.align boids) 50 (alignAt boids i) ∧
    0 < (separateLoop (b.align boids) (alignAt boids i)).count ∧
    some 0 ∈ separateLoopDivisors (b.align boids) (alignAt boids i) ∧
    flockAt boids i = boids.set i { b with velocity := nanPoint } := by
  have h1 : alignAt boids i = boids.set i (b.align boids) := by simp [alignAt, hi]
  have g1 : (alignAt boids i)[i]? = some (b.align boids) := by
    rw [h1]; exact getElem?_set_self_of boids i b _ hi
  obtain ⟨px, py, hb⟩ := exists_of_finite _ hfin
  have hd : (b.align boids).distance (b.align boids) = some 0 :=
    distance_of_same_position _ _ px py (by rw [align_position]; exact hb) rfl
  have hmem : b.align boids ∈ alignAt boids i := List.getElem?_mem g1
  have hw : b.align boids ∈ within (b.align boids) 50 (alignAt boids i) := by
    simp only [within, List.mem_filter]
    refine ⟨hmem, ?_⟩
    rw [hd]; norm_num
  refine ⟨g1, hd, hw, ?_, ?_, ?_⟩
  · rw [separateLoop_eq]
    exact List.length_pos_of_mem hw
  · rw [mem_separateLoopDivisors]
    refine ⟨_, hmem, ?_, hd.symm⟩
    rw [hd]; norm_num
  · rw [flockAt_eq boids i b hi, flock_of_same_position b b boids (List.getElem?_mem hi) rfl]
    simp [afterFlock, hfin]

/-- C17, amended, on the flock of `main` and its first agent. -/
theorem driver_call_divides_by_zero_witness :
    (mainBoids : List (Boid ℝ))[0]? = some (Boid.mk4 100 100 1 1) ∧
    (Boid.mk4 100 100 1 1 : Boid ℝ).position.isFinite = true ∧
    some 0 ∈ separateLoopDivisors ((Boid.mk4 100 100 1 1 : Boid ℝ).align mainBoids)
      (alignAt mainBoids 0) ∧
    flockAt (mainBoids : List (Boid ℝ)) 0 =
      mainBoids.set 0 { (Boid.mk4 100 100 1 1 : Boid ℝ) with velocity := nanPoint } :=
  ⟨rfl, rfl,
    (driver_call_divides_by_zero mainBoids 0 (Boid.mk4 100 100 1 1) rfl rfl).2.2.2.2.1,
    (driver_call_divides_by_zero mainBoids 0 (Boid.mk4 100 100 1 1) rfl rfl).2.2.2.2.2⟩

/-- C20 for `b` at (0,0) and the entries at (3,4) and (6,8), in both orders. -/
theorem rules_perm_witness :
    (∀ n ∈ [(Boid.mk4 3 4 0 0 : Boid ℝ), Boid.mk4 6 8 2 2],
      (Boid.mk4 0 0 1 1 : Boid ℝ).distance n ≠ some 0) ∧
    [(Boid.mk4 3 4 0 0 : Boid ℝ), Boid.mk4 6 8 2 2].Perm
      [Boid.mk4 6 8 2 2, Boid.mk4 3 4 0 0] ∧
    ((Boid.mk4 0 0 1 1 : Boid ℝ).align [Boid.mk4 6 8 2 2, Boid.mk4 3 4 0 0] =
        (Boid.mk4 0 0 1 1 : Boid ℝ).align [Boid.mk4 3 4 0 0, Boid.mk4 6 8 2 2] ∧
      (Boid.mk4 0 0 1 1 : Boid ℝ).separate [Boid.mk4 6 8 2 2, Boid.mk4 3 4 0 0] =
        (Boid.mk4 0 0 1 1 : Boid ℝ).separate [Boid.mk4 3 4 0 0, Boid.mk4 6 8 2 2] ∧
      (Boid.mk4 0 0 1 1 : Boid ℝ).cohesion [Boid.mk4 6 8 2 2, Boid.mk4 3 4 0 0] =
        (Boid.mk4 0 0 1 1 : Boid ℝ).cohesion [Boid.mk4 3 4 0 0, Boid.mk4 6 8 2 2]) := by
  have hyp : ∀ n ∈ [(Boid.mk4 3 4 0 0 : Boid ℝ), Boid.mk4 6 8 2 2],
      (Boid.mk4 0 0 1 1 : Boid ℝ).distance n ≠ some 0 := by
    intro n hn
    simp only [List.mem_cons, List.mem_singleton, List.not_mem_nil, or_false] at hn
    rcases hn with rfl | rfl
    · rw [distance_mk4_eq _ _ _ _ _ _ _ _ 5 (by norm_num) (by norm_num)]; norm_num
    · rw [distance_mk4_eq _ _ _ _ _ _ _ _ 10 (by norm_num) (by norm_num)]; norm_num
  exact ⟨hyp, List.Perm.swap _ _ _, rules_perm _ _ _ hyp (List.Perm.swap _ _ _)⟩

theorem closedForm_eq (v a u d : Float64 K) :
    fdiv (fadd (fdiv (fadd (fdiv (fadd v a) (some 2)) u) (some 2)) d) (some 2) =
      closedForm v a u d := by
  cases v <;> cases a <;> cases u <;> cases d <;> simp [closedForm, fdiv]
  ring

theorem unitX_congr (b b' : Boid K) (h : b.position = b'.position) : unitX b = unitX b' := by
  funext n
  simp [unitX, h, distance_congr b b' n n h rfl]

theorem unitY_congr (b b' : Boid K) (h : b.position = b'.position) : unitY b = unitY b' := by
  funext n
  simp [unitY, h, distance_congr b b' n n h rfl]

theorem within_ne_nil_of_le (b : Boid K) (r r' : K) (hr : r ≤ r') (L : List (Boid K))
    (h : within b r L ≠ []) : within b r' L ≠ [] := by
  intro h'
  have hs := within_sublist b r r' hr L
  rw [h'] at hs
  exact h (List.sublist_nil.mp hs)

/-- C16. For a boid `b` with velocity `v` and a list `L` with at least one
entry strictly within 10 of `b` and no entry at distance 0 from `b`, `flock`
keeps the position of `b` and gives it the velocity `v/8 + A/8 + U/4 + D/2`,
where `A` is the average velocity of the entries within 10, `U` the average of
the unit vectors `(b.position - n.position) / distance(b, n)` over the entries
within 50, and `D` the average position of the entries within 100 minus the
position of `b`, all read from `b` and `L` as they are before the call. -/
theorem flock_closed_form (b : Boid K) (L : List (Boid K))
    (h10 : within b 10 L ≠ []) (_h0 : ∀ n ∈ L, b.distance n ≠ some 0) :
    (b.flock L).position = b.position ∧
    (b.flock L).velocity =
      Point.mk
        (closedForm b.velocity.x
          (average ((within b 10 L).map fun n => n.velocity.x)
            ((within b 10 L).map fun n => n.velocity.y) (within b 10 L).length).x
          (average ((within b 50 L).map (unitX b)) ((within b 50 L).map (unitY b))
            (within b 50 L).length).x
          (fsub (average ((within b 100 L).map fun n => n.position.x)
            ((within b 100 L).map fun n => n.position.y) (within b 100 L).length).x
            b.position.x))
        (closedForm b.velocity.y
          (average ((within b 10 L).map fun n => n.velocity.x)
            ((within b 10 L).map fun n => n.velocity.y) (within b 10 L).length).y
          (average ((within b 50 L).map (unitX b)) ((within b 50 L).map (unitY b))
            (within b 50 L).length).y
          (fsub (average ((within b 100 L).map fun n => n.position.x)
            ((within b 100 L).map fun n => n.position.y) (within b 100 L).length).y
            b.position.y)) := by
  refine ⟨flock_position b L, ?_⟩
  have h50 := within_ne_nil_of_le b 10 50 (by norm_num) L h10
  have h100 := within_ne_nil_of_le b 10 100 (by norm_num) L h10
  have p1 : (b.align L).position = b.position := align_position b L
  have p2 : ((b.align L).separate L).position = b.position := by simp
  unfold Boid.flock
  rw [cohesion_eq, within_congr_left _ b 100 L p2, if_neg h100]
  rw [separate_eq, within_congr_left _ b 50 L p1, if_neg h50, unitX_congr _ b p1,
    unitY_congr _ b p1]
  rw [align_eq, if_neg h10]
  simp only [blend, closedForm_eq]

/-- C16 for `b` at (0,0) with velocity (8,16) and the single entry at (3,4)
with velocity (8,0): the velocity after `flock` is
(8/8 + 8/8 - (3/5)/4 + 3/2, 16/8 + 0/8 - (4/5)/4 + 4/2). -/
theorem flock_closed_form_witness :
    within (Boid.mk4 0 0 8 16 : Boid ℝ) 10 [Boid.mk4 3 4 8 0] ≠ [] ∧
    (∀ n ∈ [(Boid.mk4 3 4 8 0 : Boid ℝ)], (Boid.mk4 0 0 8 16 : Boid ℝ).distance n ≠ some 0) ∧
    ((Boid.mk4 0 0 8 16 : Boid ℝ).flock [Boid.mk4 3 4 8 0]).velocity =
      { x := some (67 / 20), y := some (19 / 5) } := by
  have d5 : (Boid.mk4 0 0 8 16 : Boid ℝ).distance (Boid.mk4 3 4 8 0) = some 5 :=
    distance_mk4_eq _ _ _ _ _ _ _ _ 5 (by norm_num) (by norm_num)
  have c10 : flt ((Boid.mk4 0 0 8 16 : Boid ℝ).distance (Boid.mk4 3 4 8 0)) (some 10) = true := by
    rw [d5]; norm_num
  have c50 : flt ((Boid.mk4 0 0 8 16 : Boid ℝ).distance (Boid.mk4 3 4 8 0)) (some 50) = true := by
    rw [d5]; norm_num
  have c100 : flt ((Boid.mk4 0 0 8 16 : Boid ℝ).distance (Boid.mk4 3 4 8 0)) (some 100)
      = true := by
    rw [d5]; norm_num
  have h10 : within (Boid.mk4 0 0 8 16 : Boid ℝ) 10 [Boid.mk4 3 4 8 0] ≠ [] := by
    rw [within_cons_of_lt _ _ _ _ c10]; simp
  have hyp : ∀ n ∈ [(Boid.mk4 3 4 8 0 : Boid ℝ)],
      (Boid.mk4 0 0 8 16 : Boid ℝ).distance n ≠ some 0 := by
    intro n hn
    rw [List.mem_singleton] at hn
    subst hn
    rw [d5]; norm_num
  refine ⟨h10, hyp, ?_⟩
  rw [(flock_closed_form _ _ h10 hyp).2]
  simp only [within_cons_of_lt _ _ _ _ c10, within_cons_of_lt _ _ _ _ c50,
    within_cons_of_lt _ _ _ _ c100, within_nil]
  simp only [List.map, unitX, unitY, d5]
  norm_num [Boid.mk4, closedForm, average, fdiv]

theorem sqrt_le_of_le_mul_self (x c : K) (hx : 0 ≤ x) (hc : 0 ≤ c) (h : x ≤ c * c) :
    SqrtField.sqrt x ≤ c := by
  by_contra hlt
  have hlt' : c < SqrtField.sqrt x := not_le.mp hlt
  have h1 := SqrtField.sqrt_mul_self x hx
  have h2 : c * c < SqrtField.sqrt x * SqrtField.sqrt x :=
    mul_self_lt_mul_self hc hlt'
  rw [h1] at h2
  exact absurd h (not_le.mpr h2)

theorem unit_of_counted (b n : Boid K) (hc : flt (b.distance n) (some 50) = true)
    (h0 : b.distance n ≠ some 0) :
    ∃ x y : K, unitX b n = some x ∧ unitY b n = some y ∧ x * x + y * y = 1 := by
  rcases hb : b.position with ⟨bx, bY⟩
  rcases hn : n.position with ⟨nx, ny⟩
  cases bx <;> cases bY <;> cases nx <;> cases ny <;>
    simp [Boid.distance, hb, hn] at hc
  rename_i px py qx qy
  have hs : (0 : K) ≤ (px - qx) * (px - qx) + (py - qy) * (py - qy) :=
    add_nonneg (mul_self_nonneg _) (mul_self_nonneg _)
  have hd := distance_of_positions b n px py qx qy hb hn
  rw [hd] at h0
  have hne : SqrtField.sqrt ((px - qx) * (px - qx) + (py - qy) * (py - qy)) ≠ 0 :=
    fun e => h0 (by rw [e])
  have hsq := SqrtField.sqrt_mul_self _ hs
  refine ⟨(px - qx) / SqrtField.sqrt ((px - qx) * (px - qx) + (py - qy) * (py - qy)),
    (py - qy) / SqrtField.sqrt ((px - qx) * (px - qx) + (py - qy) * (py - qy)), ?_, ?_, ?_⟩
  · simp [unitX, hd, hb, hn, fdiv_some _ _ hne]
  · simp [unitY, hd, hb, hn, fdiv_some _ _ hne]
  · field_simp
    nlinarith [hsq]

theorem fsum_units (N : List (Boid K)) (f g : Boid K → Float64 K)
    (h : ∀ n ∈ N, ∃ x y : K, f n = some x ∧ g n = some y ∧ x * x + y * y = 1) :
    ∃ sx sy : K, fsum (N.map f) = some sx ∧ fsum (N.map g) = some sy ∧
      sx * sx + sy * sy ≤ (N.length : K) * (N.length : K) := by
  induction N with
  | nil => exact ⟨0, 0, rfl, rfl, by simp⟩
  | cons n N ih =>
    obtain ⟨sx, sy, hx, hy, hle⟩ := ih (fun m hm => h m (List.mem_cons_of_mem _ hm))
    obtain ⟨x, y, hfx, hgy, hxy⟩ := h n (List.mem_cons_self _ _)
    refine ⟨x + sx, y + sy, ?_, ?_, ?_⟩
    · simp [hfx, hx]
    · simp [hgy, hy]
    · have hm : (0 : K) ≤ (N.length : K) := Nat.cast_nonneg _
      have hcs : (x * sx + y * sy) * (x * sx + y * sy) ≤
          (N.length : K) * (N.length : K) := by
        nlinarith [mul_self_nonneg (x * sy - y * sx)]
      have hdot : x * sx + y * sy ≤ (N.length : K) := by
        by_contra hlt
        have hlt' := not_le.mp hlt
        have := mul_self_lt_mul_self hm hlt'
        exact absurd hcs (not_le.mpr this)
      simp only [List.length_cons, Nat.cast_add, Nat.cast_one]
      nlinarith

/-- C19. For a boid `b` with finite velocity `v` and a list `L` with at least
one entry strictly within 50 of `b` and no entry at distance 0 from `b`, the
averaged repulsion vector `U` of `separate` is finite with Euclidean norm at
most 1, the new velocity is `v' = (v + U) / 2`, and `|v' - v/2| ≤ 1/2`. -/
theorem separate_bounded (b : Boid K) (L : List (Boid K)) (vx vy : K)
    (hv : b.velocity = { x := some vx, y := some vy })
    (h50 : within b 50 L ≠ []) (h0 : ∀ n ∈ L, b.distance n ≠ some 0) :
    ∃ ux uy : K,
      average ((within b 50 L).map (unitX b)) ((within b 50 L).map (unitY b))
        (within b 50 L).length = { x := some ux, y := some uy } ∧
      SqrtField.sqrt (ux * ux + uy * uy) ≤ 1 ∧
      (b.separate L).velocity = { x := some ((vx + ux) / 2), y := some ((vy + uy) / 2) } ∧
      SqrtField.sqrt (((vx + ux) / 2 - vx / 2) * ((vx + ux) / 2 - vx / 2) +
        ((vy + uy) / 2 - vy / 2) * ((vy + uy) / 2 - vy / 2)) ≤ 1 / 2 := by
  have hunits : ∀ n ∈ within b 50 L,
      ∃ x y : K, unitX b n = some x ∧ unitY b n = some y ∧ x * x + y * y = 1 := by
    intro n hn
    simp only [within, List.mem_filter] at hn
    exact unit_of_counted b n hn.2 (h0 n hn.1)
  obtain ⟨sx, sy, hx, hy, hle⟩ := fsum_units (within b 50 L) (unitX b) (unitY b) hunits
  have hlen : 0 < (within b 50 L).length := List.length_pos.mpr h50
  have hpos : (0 : K) < ((within b 50 L).length : K) := Nat.cast_pos.mpr hlen
  have hne : ((within b 50 L).length : K) ≠ 0 := ne_of_gt hpos
  have havg : average ((within b 50 L).map (unitX b)) ((within b 50 L).map (unitY b))
      (within b 50 L).length =
      { x := some (sx / ((within b 50 L).length : K)),
        y := some (sy / ((within b 50 L).length : K)) } := by
    simp [average, hx, hy, fdiv_some _ _ hne]
  have hnorm : sx / ((within b 50 L).length : K) * (sx / ((within b 50 L).length : K)) +
      sy / ((within b 50 L).length : K) * (sy / ((within b 50 L).length : K)) ≤ 1 := by
    have e : sx / ((within b 50 L).length : K) * (sx / ((within b 50 L).length : K)) +
        sy / ((within b 50 L).length : K) * (sy / ((within b 50 L).length : K)) =
        (sx * sx + sy * sy) / (((within b 50 L).length : K) * ((within b 50 L).length : K)) := by
      field_simp
    rw [e, div_le_one (mul_pos hpos hpos)]
    exact hle
  refine ⟨_, _, havg, ?_, ?_, ?_⟩
  · exact sqrt_le_of_le_mul_self _ 1
      (add_nonneg (mul_self_nonneg _) (mul_self_nonneg _)) zero_le_one (by simpa using hnorm)
  · rw [separate_eq, if_neg h50, havg]
    simp [blend, hv]
  · refine sqrt_le_of_le_mul_self _ (1 / 2)
      (add_nonneg (mul_self_nonneg _) (mul_self_nonneg _)) (by norm_num) ?_
    nlinarith [hnorm]

/-- C19 for `b` at (0,0) with velocity (1,1) and the single entry at (3,4). -/
theorem separate_bounded_witness :
    (Boid.mk4 0 0 1 1 : Boid ℝ).velocity = { x := some 1, y := some 1 } ∧
    within (Boid.mk4 0 0 1 1 : Boid ℝ) 50 [Boid.mk4 3 4 0 0] ≠ [] ∧
    (∀ n ∈ [(Boid.mk4 3 4 0 0 : Boid ℝ)], (Boid.mk4 0 0 1 1 : Boid ℝ).distance n ≠ some 0) ∧
    ∃ ux uy : ℝ,
      average ((within (Boid.mk4 0 0 1 1 : Boid ℝ) 50 [Boid.mk4 3 4 0 0]).map
          (unitX (Boid.mk4 0 0 1 1)))
        ((within (Boid.mk4 0 0 1 1 : Boid ℝ) 50 [Boid.mk4 3 4 0 0]).map
          (unitY (Boid.mk4 0 0 1 1)))
        (within (Boid.mk4 0 0 1 1 : Boid ℝ) 50 [Boid.mk4 3 4 0 0]).length =
          { x := some ux, y := some uy } ∧
      SqrtField.sqrt (ux * ux + uy * uy) ≤ 1 ∧
      ((Boid.mk4 0 0 1 1 : Boid ℝ).separate [Boid.mk4 3 4 0 0]).velocity =
        { x := some ((1 + ux) / 2), y := some ((1 + uy) / 2) } ∧
      SqrtField.sqrt (((1 + ux) / 2 - 1 / 2) * ((1 + ux) / 2 - 1 / 2) +
        ((1 + uy) / 2 - 1 / 2) * ((1 + uy) / 2 - 1 / 2)) ≤ 1 / 2 := by
  have d5 : (Boid.mk4 0 0 1 1 : Boid ℝ).distance (Boid.mk4 3 4 0 0) = some 5 :=
    distance_mk4_eq _ _ _ _ _ _ _ _ 5 (by norm_num) (by norm_num)
  have c50 : flt ((Boid.mk4 0 0 1 1 : Boid ℝ).distance (Boid.mk4 3 4 0 0)) (some 50) = true := by
    rw [d5]; norm_num
  have h50 : within (Boid.mk4 0 0 1 1 : Boid ℝ) 50 [Boid.mk4 3 4 0 0] ≠ [] := by
    rw [within_cons_of_lt _ _ _ _ c50]; simp
  have hyp : ∀ n ∈ [(Boid.mk4 3 4 0 0 : Boid ℝ)],
      (Boid.mk4 0 0 1 1 : Boid ℝ).distance n ≠ some 0 := by
    intro n hn
    rw [List.mem_singleton] at hn
    subst hn
    rw [d5]; norm_num
  exact ⟨rfl, h50, hyp, separate_bounded _ _ 1 1 rfl h50 hyp⟩

theorem within_append (b : Boid K) (r : K) (A B : List (Boid K)) :
    within b r (A ++ B) = within b r A ++ within b r B := by
  simp [within, List.filter_append]

theorem within_eq_nil_of_far (b : Boid K) (r : K) (A : List (Boid K))
    (h : ∀ n ∈ A, flt (b.distance n) (some r) = false) : within b r A = [] := by
  simp only [within, List.filter_eq_nil_iff]
  intro n hn
  simp [h n hn]

theorem far_of_same_positions (b : Boid K) (r : K) (A A₀ : List (Boid K))
    (hp : A.map (fun n => n.position) = A₀.map (fun n => n.position))
    (h : ∀ n ∈ A₀, flt (b.distance n) (some r) = false) :
    ∀ n ∈ A, flt (b.distance n) (some r) = false := by
  intro n hn
  have hm : n.position ∈ A₀.map (fun n => n.position) := by
    rw [← hp]; exact List.mem_map.mpr ⟨n, hn, rfl⟩
  obtain ⟨m, hmA, hmp⟩ := List.mem_map.mp hm
  rw [distance_congr b b n m rfl hmp.symm]
  exact h m hmA

theorem flock_prefix (b : Boid K) (A A₀ T : List (Boid K))
    (hp : A.map (fun n => n.position) = A₀.map (fun n => n.position))
    (h : ∀ n ∈ A₀, flt (b.distance n) (some 10) = false) :
    b.flock (A ++ T) = b.flock (A₀ ++ T) := by
  have hA := far_of_same_positions b 10 A A₀ hp h
  have ha : b.align (A ++ T) = b.align (A₀ ++ T) := by
    rw [align_eq, align_eq, within_append, within_append,
      within_eq_nil_of_far b 10 A hA, within_eq_nil_of_far b 10 A₀ h]
  have hpos : (A ++ T).map (fun n => n.position) = (A₀ ++ T).map (fun n => n.position) := by
    rw [List.map_append, List.map_append, hp]
  unfold Boid.flock
  rw [ha, separate_congr _ _ _ hpos, cohesion_congr _ _ _ hpos]

theorem seqPass_eq_of_far : ∀ (todo done₀ done : List (Boid K)),
    done.map (fun n => n.position) = done₀.map (fun n => n.position) →
    (done₀ ++ todo).Pairwise (fun a c => flt (a.distance c) (some 10) = false) →
    seqPass done todo = done ++ todo.map (fun t => t.flock (done₀ ++ todo)) := by
  intro todo
  induction todo with
  | nil => intro done₀ done _ _; simp [seqPass]
  | cons b rest ih =>
    intro done₀ done hp hpw
    have hfar : ∀ n ∈ done₀, flt (b.distance n) (some 10) = false := by
      intro n hn
      rw [distance_comm]
      exact (List.pairwise_append.mp hpw).2.2 n hn b (List.mem_cons_self _ _)
    have hb : b.flock (done ++ b :: rest) = b.flock (done₀ ++ b :: rest) :=
      flock_prefix b done done₀ (b :: rest) hp hfar
    have hp' : (done ++ [b.flock (done₀ ++ b :: rest)]).map (fun n => n.position) =
        (done₀ ++ [b]).map (fun n => n.position) := by
      simp [hp]
    have hpw' : ((done₀ ++ [b]) ++ rest).Pairwise
        (fun a c => flt (a.distance c) (some 10) = false) := by
      simpa using hpw
    rw [seqPass, hb, ih (done₀ ++ [b]) _ hp' hpw']
    simp

/-- C18. In a flock in which no two agents at different indices are strictly
within 10 of each other, the velocity pass of `main`, which updates the agents
in place one after another against the live flock, leaves every agent as
`flock` run against the pre-tick flock leaves it. -/
theorem velocityPass_eq_snapshot_of_far (boids : List (Boid K))
    (h : boids.Pairwise (fun a c => flt (a.distance c) (some 10) = false)) :
    velocityPass boids = boids.map (fun b => b.flock boids) := by
  rw [velocityPass_eq_seqPass, seqPass_eq_of_far boids [] [] rfl (by simpa using h)]
  simp

/-- C18 for the flock of two agents at (0,0) and (100,0). -/
theorem velocityPass_eq_snapshot_of_far_witness :
    [(Boid.mk4 0 0 1 1 : Boid ℝ), Boid.mk4 100 0 2 0].Pairwise
      (fun a c => flt (a.distance c) (some 10) = false) ∧
    velocityPass [(Boid.mk4 0 0 1 1 : Boid ℝ), Boid.mk4 100 0 2 0] =
      [(Boid.mk4 0 0 1 1 : Boid ℝ), Boid.mk4 100 0 2 0].map
        (fun b => b.flock [(Boid.mk4 0 0 1 1 : Boid ℝ), Boid.mk4 100 0 2 0]) := by
  have hyp : [(Boid.mk4 0 0 1 1 : Boid ℝ), Boid.mk4 100 0 2 0].Pairwise
      (fun a c => flt (a.distance c) (some 10) = false) := by
    simp only [List.pairwise_cons, List.mem_singleton, List.not_mem_nil, forall_eq,
      List.Pairwise.nil, and_true, false_imp_iff, implies_true]
    rw [distance_mk4_eq _ _ _ _ _ _ _ _ 100 (by norm_num) (by norm_num)]
    norm_num
  exact ⟨hyp, velocityPass_eq_snapshot_of_far _ hyp⟩

theorem distanceWith_fmul (b n : Boid K) : b.distanceWith fmul n = b.distance n := rfl

theorem separateStepTraced_fmul (b : Boid K) (st : Acc K × List (Float64 K)) (n : Boid K) :
    separateStepTraced fmul b st n = (separateStep b st.1 n, st.2 ++ separateStepDivisors b n) := by
  unfold separateStepTraced separateStep separateStepDivisors
  rw [distanceWith_fmul]
  by_cases h : flt (b.distance n) (some 50) = true
  · simp [h]
  · simp [h]

theorem foldl_separateStepTraced_fmul (b : Boid K) (L : List (Boid K)) :
    ∀ st : Acc K × List (Float64 K),
      L.foldl (separateStepTraced fmul b) st =
        (L.foldl (separateStep b) st.1, st.2 ++ separateLoopDivisors b L) := by
  induction L with
  | nil => intro st; simp [separateLoopDivisors]
  | cons n L ih =>
    intro st
    rw [List.foldl_cons, List.foldl_cons, separateStepTraced_fmul, ih]
    simp [separateLoopDivisors]

/-- The traced run of `separate` in exact arithmetic returns what
`Boid.separate` returns, with the divisors listed by `separateDivisors`. -/
theorem separateTraced_fmul (b : Boid K) (L : List (Boid K)) :
    separateTraced fmul b L = (b.separate L, separateDivisors b L) := by
  unfold separateTraced Boid.separate separateDivisors separateLoop
  rw [foldl_separateStepTraced_fmul]
  by_cases h : 0 < (List.foldl (separateStep b) Acc.zero L).count
  · simp [h]
  · simp [h]

theorem samePosition_iff (b n : Boid K) :
    b.samePosition n = true ↔ b.position.isFinite = true ∧ n.position = b.position := by
  rcases b with ⟨⟨bx, bY⟩, vb⟩
  rcases n with ⟨⟨nx, ny⟩, vn⟩
  cases bx <;> cases bY <;> cases nx <;> cases ny <;>
    simp [Boid.samePosition, feq, Point.isFinite]
  constructor
  · rintro ⟨h1, h2⟩; exact ⟨h1.symm, h2.symm⟩
  · rintro ⟨h1, h2⟩; exact ⟨h1.symm, h2.symm⟩

/-- With a finite velocity, `separate` leaves a velocity that is not finite
exactly when the list holds an entry at the position of `b`. -/
theorem separate_velocity_not_finite_iff (b : Boid K) (L : List (Boid K))
    (hv : b.velocity.isFinite = true) :
    (b.separate L).velocity.isFinite = false ↔ ∃ n ∈ L, b.samePosition n = true := by
  constructor
  · intro hnf
    by_contra hno
    have hfar : ∀ n ∈ L, b.distance n ≠ some 0 := by
      intro n hn h0
      exact hno ⟨n, hn, (distance_eq_zero_iff b n).mp h0⟩
    have hfin : (b.separate L).velocity.isFinite = true := by
      rw [separate_eq]
      by_cases h50 : within b 50 L = []
      · simp [h50, hv]
      · have hunits : ∀ n ∈ within b 50 L,
            ∃ x y : K, unitX b n = some x ∧ unitY b n = some y ∧ x * x + y * y = 1 := by
          intro n hn
          simp only [within, List.mem_filter] at hn
          exact unit_of_counted b n hn.2 (hfar n hn.1)
        obtain ⟨sx, sy, hx, hy, -⟩ := fsum_units (within b 50 L) (unitX b) (unitY b) hunits
        obtain ⟨vx, vy, hvel⟩ := exists_of_finite _ hv
        have hne : ((within b 50 L).length : K) ≠ 0 :=
          Nat.cast_ne_zero.mpr (Nat.pos_iff_ne_zero.mp (List.length_pos.mpr h50))
        simp [h50, blend, average, hx, hy, hvel, fdiv_some _ _ hne, Point.isFinite]
    rw [hfin] at hnf
    cases hnf
  · rintro ⟨n, hn, hs⟩
    obtain ⟨hfin, hp⟩ := (samePosition_iff b n).mp hs
    rw [separate_of_same_position b n L hfin hn hp]
    rfl

/-- When the square of `e` underflows, the boid at (0,0) is at distance 0 from
the entry at `(e, e)`, counts it and divides twice by that distance. -/
theorem separateTraced_underflow (e : K) (he : |(0 - e) * (0 - e)| ≤ 1 / 2 ^ 1075) :
    (Boid.mk4 0 0 1 1 : Boid K).distanceWith fmulUnderflow (Boid.mk4 e e 0 0) = some 0 ∧
    (separateTraced fmulUnderflow (Boid.mk4 0 0 1 1 : Boid K) [Boid.mk4 e e 0 0]).2 =
      [some 0, some 0, some 1, some 1, some 2, some 2] := by
  have hm : fmulUnderflow (some ((0 : K) - e)) (some ((0 : K) - e)) = some 0 := by
    simp only [fmulUnderflow, if_pos he]
  have hs : fsqrt (some (0 : K)) = some 0 := by
    rw [fsqrt_some _ le_rfl, sqrt_zero]
  have hd : (Boid.mk4 0 0 1 1 : Boid K).distanceWith fmulUnderflow (Boid.mk4 e e 0 0) =
      some 0 := by
    simp only [Boid.distanceWith, Boid.mk4, fsub_some, hm, fadd_some, add_zero, hs]
  have hc : flt ((Boid.mk4 0 0 1 1 : Boid K).distanceWith fmulUnderflow (Boid.mk4 e e 0 0))
      (some 50) = true := by
    rw [hd]; norm_num
  have hstep : separateStepTraced fmulUnderflow (Boid.mk4 0 0 1 1 : Boid K) (Acc.zero, [])
      (Boid.mk4 e e 0 0) =
      ({ sum := { x := none, y := none }, count := 1 }, [some 0, some 0]) := by
    rw [separateStepTraced, if_pos hc]
    simp only [Boid.mk4, fsub_some, hm, fadd_some, add_zero, hs, fdiv_zero, fadd_none_right,
      Acc.zero, List.nil_append, Nat.zero_add]
  refine ⟨hd, ?_⟩
  rw [separateTraced]
  simp only [List.foldl_cons, List.foldl_nil, hstep]
  simp

/-- C11, as stated, fails on `float64`. For `b` at (0,0) and the single entry
at (2^-600, 2^-600), which is not at the position of `b`, both squares of the
position difference underflow to 0, the distance is 0, the entry is counted and
`separate` divides twice by that distance 0; in exact arithmetic the same run
has no zero divisor. -/
theorem separate_underflow_zero_divisor :
    (¬ ∀ (b : Boid ℝ) (L : List (Boid ℝ)),
        (some 0 ∈ (separateTraced fmulUnderflow b L).2 ↔
          ∃ n ∈ L, n.position = b.position)) ∧
    (Boid.mk4 (1 / 2 ^ 600) (1 / 2 ^ 600) 0 0 : Boid ℝ).position ≠
      (Boid.mk4 0 0 1 1 : Boid ℝ).position ∧
    (Boid.mk4 0 0 1 1 : Boid ℝ).distanceWith fmulUnderflow
      (Boid.mk4 (1 / 2 ^ 600) (1 / 2 ^ 600) 0 0) = some 0 ∧
    (separateTraced fmulUnderflow (Boid.mk4 0 0 1 1 : Boid ℝ)
      [Boid.mk4 (1 / 2 ^ 600) (1 / 2 ^ 600) 0 0]).2 =
        [some 0, some 0, some 1, some 1, some 2, some 2] ∧
    some 0 ∉ (separateTraced fmul (Boid.mk4 0 0 1 1 : Boid ℝ)
      [Boid.mk4 (1 / 2 ^ 600) (1 / 2 ^ 600) 0 0]).2 := by
  have hu : |((0 : ℝ) - 1 / 2 ^ 600) * (0 - 1 / 2 ^ 600)| ≤ 1 / 2 ^ 1075 := by
    rw [abs_mul_self]
    have h : ((0 : ℝ) - 1 / 2 ^ 600) * (0 - 1 / 2 ^ 600) = 1 / 2 ^ 1200 := by
      rw [zero_sub, neg_mul_neg, div_mul_div_comm, one_mul, ← pow_add]
    rw [h]
    apply one_div_le_one_div_of_le (by positivity)
    exact pow_le_pow_right₀ (by norm_num) (by norm_num)
  have hd := (separateTraced_underflow (1 / 2 ^ 600 : ℝ) hu).1
  have htr := (separateTraced_underflow (1 / 2 ^ 600 : ℝ) hu).2
  have hpos : (Boid.mk4 (1 / 2 ^ 600) (1 / 2 ^ 600) 0 0 : Boid ℝ).position ≠
      (Boid.mk4 0 0 1 1 : Boid ℝ).position := by
    simp [Boid.mk4]
  refine ⟨?_, hpos, hd, htr, ?_⟩
  · intro h
    have h1 := (h (Boid.mk4 0 0 1 1) [Boid.mk4 (1 / 2 ^ 600) (1 / 2 ^ 600) 0 0]).mp
      (by rw [htr]; simp)
    obtain ⟨n, hn, hp⟩ := h1
    rw [List.mem_singleton] at hn
    subst hn
    exact hpos hp
  · rw [separateTraced_fmul, zero_mem_separateDivisors]
    rintro ⟨n, hn, hsame⟩
    rw [List.mem_singleton] at hn
    subst hn
    exact hpos ((samePosition_iff _ _).mp hsame).2

/-- C11, amended. In exact arithmetic, for every boid `b` and list `L`: the
run of `separate` that records its divisors returns what `Boid.separate`
returns; it divides by a distance equal to 0 exactly when `L` holds an entry at
the position of `b`, and so it is for all its divisions together, those by the
count and by 2 included, so that with no entry at the position of `b` no
division has a zero divisor; and when the velocity of `b` is finite, the
velocity `separate` leaves is not finite exactly in that case. An entry is at
the position of `b` when the coordinates are equal as floats, that is when the
position of `b` is finite and the two positions are equal. -/
theorem separate_zero_divisor (b : Boid K) (L : List (Boid K)) :
    separateTraced fmul b L = (b.separate L, separateDivisors b L) ∧
    (some 0 ∈ separateLoopDivisors b L ↔ ∃ n ∈ L, b.samePosition n = true) ∧
    (some 0 ∈ (separateTraced fmul b L).2 ↔ ∃ n ∈ L, b.samePosition n = true) ∧
    (b.velocity.isFinite = true →
      ((b.separate L).velocity.isFinite = false ↔ ∃ n ∈ L, b.samePosition n = true)) ∧
    (∀ n : Boid K,
      b.samePosition n = true ↔ b.position.isFinite = true ∧ n.position = b.position) := by
  refine ⟨separateTraced_fmul b L, zero_mem_separateLoopDivisors b L, ?_,
    separate_velocity_not_finite_iff b L, samePosition_iff b⟩
  rw [separateTraced_fmul]
  exact zero_mem_separateDivisors b L

/-- C11, amended, for `b` at (0,0) with velocity (1,1) and the entries at (0,0)
and (3,4): the first is at the position of `b`, so `separate` divides by 0 and
leaves a velocity that is not finite; without that entry it divides by the
distance 5 only and leaves the velocity (1/5, 1/10). -/
theorem separate_zero_divisor_witness :
    (Boid.mk4 0 0 1 1 : Boid ℝ).velocity.isFinite = true ∧
    some 0 ∈ (separateTraced fmul (Boid.mk4 0 0 1 1 : Boid ℝ)
      [Boid.mk4 0 0 2 2, Boid.mk4 3 4 0 0]).2 ∧
    ((Boid.mk4 0 0 1 1 : Boid ℝ).separate
      [Boid.mk4 0 0 2 2, Boid.mk4 3 4 0 0]).velocity.isFinite = false ∧
    some 0 ∉ (separateTraced fmul (Boid.mk4 0 0 1 1 : Boid ℝ) [Boid.mk4 3 4 0 0]).2 ∧
    ((Boid.mk4 0 0 1 1 : Boid ℝ).separate [Boid.mk4 3 4 0 0]).velocity.isFinite ≠ false := by
  have hex : ∃ n ∈ [(Boid.mk4 0 0 2 2 : Boid ℝ), Boid.mk4 3 4 0 0],
      (Boid.mk4 0 0 1 1 : Boid ℝ).samePosition n = true :=
    ⟨Boid.mk4 0 0 2 2, by simp, by simp [Boid.samePosition, Boid.mk4, feq]⟩
  have hno : ¬ ∃ n ∈ [(Boid.mk4 3 4 0 0 : Boid ℝ)],
      (Boid.mk4 0 0 1 1 : Boid ℝ).samePosition n = true := by
    rintro ⟨n, hn, hs⟩
    rw [List.mem_singleton] at hn
    subst hn
    simp [Boid.samePosition, Boid.mk4, feq] at hs
  exact ⟨rfl,
    (separate_zero_divisor (Boid.mk4 0 0 1 1) [Boid.mk4 0 0 2 2, Boid.mk4 3 4 0 0]).2.2.1.mpr hex,
    ((separate_zero_divisor (Boid.mk4 0 0 1 1) [Boid.mk4 0 0 2 2, Boid.mk4 3 4 0 0]).2.2.2.1
      rfl).mpr hex,
    fun h => hno ((separate_zero_divisor (Boid.mk4 0 0 1 1) [Boid.mk4 3 4 0 0]).2.2.1.mp h),
    fun h => hno (((separate_zero_divisor (Boid.mk4 0 0 1 1) [Boid.mk4 3 4 0 0]).2.2.2.1
      rfl).mp h)⟩

end Lemmas

end Boids
